import Mathlib

/-!
Verification development for the ProductScraper repository.

The Python sources under `scraper/` and `utilities/` are shallowly embedded:
strings become `List Char`, Python floats are modelled as exact rationals
(`ℚ`), fallible code returns `Option`, and stateful loops become explicit
folds.  Parsing layers first produce discrete data (digit values as `ℕ`) and
a small interpretation function then builds the rational value, so that the
discrete part of every computation can be evaluated by `decide`.
-/

namespace ProductScraper

/-- Model of Python's `\s` character class (the whitespace characters that
occur in scraped text). -/
def isSpaceChar (c : Char) : Bool :=
  c = ' ' || c = '\t' || c = '\n' || c = '\r'

/-- Digits value of a digit string, `foldl (10*a + d)` — the value Python's
`int`/`float` assigns to a run of decimal digits. -/
def digitsNat (l : List Char) : ℕ :=
  l.foldl (fun a c => 10 * a + (c.toNat - 48)) 0

/-- Drop whitespace from both ends: Python's `str.strip()`. -/
def stripStr (l : List Char) : List Char :=
  ((l.dropWhile isSpaceChar).reverse.dropWhile isSpaceChar).reverse

/-- ASCII lower-casing, Python's `str.lower()` (accented characters are kept
unchanged, which agrees with the lowercase inputs the pipeline handles). -/
def lowerL (l : List Char) : List Char :=
  l.map Char.toLower

/-- A string made of decimal digits only. -/
def AllDigits (l : List Char) : Prop :=
  ∀ c ∈ l, c.isDigit

instance (l : List Char) : Decidable (AllDigits l) :=
  inferInstanceAs (Decidable (∀ c ∈ l, c.isDigit))

/-- Segments interleaved with a separator character, the inverse picture of
Python's `str.split(sep)`. -/
def joinSep (sep : Char) : List (List Char) → List Char
  | [] => []
  | [p] => p
  | p :: ps => p ++ sep :: joinSep sep ps

/-- Round-half-even to an integer, Python's `round` tie behaviour. -/
def roundHalfEven (q : ℚ) : ℤ :=
  if q - ⌊q⌋ < 1 / 2 then ⌊q⌋
  else if q - ⌊q⌋ > 1 / 2 then ⌊q⌋ + 1
  else if ⌊q⌋ % 2 = 0 then ⌊q⌋ else ⌊q⌋ + 1

/-- Python's `round(x, 2)` on a value modelled as a rational. -/
def round2 (q : ℚ) : ℚ :=
  (roundHalfEven (q * 100) : ℚ) / 100

namespace Pipelines

/-- Characters kept by `re.sub(r'[^\d,.\s]', '', value)` in `_parse_price`. -/
def keptChar (c : Char) : Bool :=
  c.isDigit || c = ',' || c = '.' || isSpaceChar c

/-- Characters collapsed to a single space by `re.sub(r'[\s/€]+', ' ', value)`
in `process_item`'s string-field normalization. -/
def isCollapse (c : Char) : Bool :=
  isSpaceChar c || c = '/' || c = '€'

/-- Fuel-based worker for `collapseRuns`; every step consumes at least one
character, so fuel equal to the input length always suffices. -/
def collapseRunsF : ℕ → List Char → List Char
  | 0, _ => []
  | _, [] => []
  | fuel + 1, c :: t =>
    if isCollapse c then ' ' :: collapseRunsF fuel (t.dropWhile isCollapse)
    else c :: collapseRunsF fuel t

/-- Replace each maximal run of `[\s/€]` characters by one space
(`re.sub(r'[\s/€]+', ' ', value)`). -/
def collapseRuns (l : List Char) : List Char :=
  collapseRunsF l.length l

/-- String-field normalization applied by `process_item` to every string
field: collapse `[\s/€]+` runs to a space, strip, lower-case. -/
def cleanStr (s : List Char) : List Char :=
  lowerL (stripStr (collapseRuns s))

/-- Index of the last occurrence of `ch`, `-1` when absent
(Python's `str.rfind`). -/
def rfind (ch : Char) : List Char → ℤ
  | [] => -1
  | c :: t =>
    let r := rfind ch t
    if r ≥ 0 then r + 1 else if c = ch then 0 else -1

/-- Python's `str.split(sep)` for a one-character separator. -/
def splitOnChar (ch : Char) : List Char → List (List Char)
  | [] => [[]]
  | c :: t =>
    let r := splitOnChar ch t
    if c = ch then [] :: r
    else
      match r with
      | [] => [[c]]
      | h :: rt => (c :: h) :: rt

/-- Reassembly `''.join(parts[:-1]) + '.' + parts[-1]` used by the
"only one separator type, occurring more than once" branches. -/
def joinAllButLast (parts : List (List Char)) : List Char :=
  match parts.getLast? with
  | some lastp => parts.dropLast.flatten ++ '.' :: lastp
  | none => ['.']

/-- Character map of `value.replace(',', '.')`. -/
def commaToDot (c : Char) : Char :=
  if c = ',' then '.' else c

/-- The separator-disambiguation branches of `_parse_price` (lines 89–110 of
`scraper/pipelines.py`), applied to the already filtered and stripped value. -/
def branchTransform (v : List Char) : List Char :=
  if ',' ∈ v ∧ '.' ∈ v then
    if rfind ',' v > rfind '.' v then
      (v.filter (fun c => ¬ (c = '.'))).map commaToDot
    else
      v.filter (fun c => ¬ (c = ','))
  else if v.count ',' > 1 then
    joinAllButLast (splitOnChar ',' v)
  else if v.count '.' > 1 then
    joinAllButLast (splitOnChar '.' v)
  else
    v.map commaToDot

/-- Discrete part of Python's `float(s)` on the strings `_parse_price`
builds: optional surrounding whitespace, then digits with at most one dot
and at least one digit; anything else raises.  Returns the digits of the
integer part and of the fractional part. -/
def floatParseParts (l : List Char) : Option (List Char × List Char) :=
  let t := stripStr l
  if t.all (fun c => c.isDigit || c = '.') && t.any Char.isDigit then
    match splitOnChar '.' t with
    | [i] => some (i, [])
    | [i, f] => some (i, f)
    | _ => none
  else none

/-- The rational value of a parsed float, from its integer-part digits and
fractional-part digits. -/
def floatVal (p : List Char × List Char) : ℚ :=
  (digitsNat p.1 : ℚ) + (digitsNat p.2 : ℚ) / 10 ^ p.2.length

/-- Model of Python's `float(s)`, with float values modelled as exact
rationals; `none` models a raised `ValueError`. -/
def floatParse (l : List Char) : Option ℚ :=
  (floatParseParts l).map floatVal

/-- The possible runtime types of a price field reaching `_parse_price`:
`int`/`float` (modelled as `ℚ`), `str`, or anything else (e.g. `None`). -/
inductive PriceVal where
  | num (q : ℚ)
  | str (s : List Char)
  | other
deriving DecidableEq

/-- Model of `ProductScraperPipeline._parse_price` (scraper/pipelines.py, 76–117). -/
def parse_price : PriceVal → ℚ
  | .num q => round2 q
  | .str s =>
    let v := stripStr (s.filter keptChar)
    let v' := branchTransform v
    match floatParse v' with
    | some q => round2 q
    | none => 0
  | .other => 0

/-- The raw price fields of one scraped item (the fields `process_item`
reads when deriving `has_discount`; remaining fields do not influence it). -/
structure RawItem where
  primary_price : PriceVal
  secondary_price : PriceVal
  before_discount_price : PriceVal

/-- The cleaning step applies only to string-typed fields. -/
def cleanVal : PriceVal → PriceVal
  | .str s => .str (cleanStr s)
  | v => v

/-- The result of `ProductScraperPipeline.process_item` restricted to price
fields and the derived flag (scraper/pipelines.py, 43–74). -/
structure CleanItem where
  primary_price : ℚ
  secondary_price : ℚ
  before_discount_price : ℚ
  has_discount : Bool

/-- Model of `ProductScraperPipeline.process_item`: clean string fields, parse the
three price fields, then set
`has_discount = bool(before_discount > primary and before_discount != 0)`
(the `or 0.0` defaults in the source only replace a falsy value `0.0` by
itself, since the fields were just assigned by `_parse_price`). -/
def process_item (r : RawItem) : CleanItem :=
  let pp := parse_price (cleanVal r.primary_price)
  let sp := parse_price (cleanVal r.secondary_price)
  let bd := parse_price (cleanVal r.before_discount_price)
  { primary_price := pp
    secondary_price := sp
    before_discount_price := bd
    has_discount := decide (bd > pp ∧ bd ≠ 0) }

end Pipelines

namespace QntExtraction

/-!
Embedding of `utilities/qnt_brand_extraction.py :: standardize_quantity`.
The regular expressions of the priority-ordered shape matchers are compiled
into a small backtracking matcher over `List Char` with `re.search`
semantics (leftmost start position wins; within one position, alternatives
and greedy repetitions are explored in standard backtracking order).
-/

/-- Python `\w` for the word-boundary `\b` of the filler regex: ASCII
alphanumerics, underscore, and the accented letters occurring in the
Portuguese filler words. -/
def isWordChar (c : Char) : Bool :=
  c.isAlphanum || c = '_' ||
    c ∈ ['á', 'é', 'í', 'ó', 'ú', 'â', 'ê', 'ô', 'ã', 'õ', 'à', 'ç', 'ü']

/-- Boundary `\b` between a left character (none at string start) and a right
character (none at string end). -/
def wordBoundary (a b : Option Char) : Bool :=
  (match a with | some c => isWordChar c | none => false) !=
    (match b with | some c => isWordChar c | none => false)

/-- The alternatives of the filler regex
`\b(emb\.?|quant\. mínima =|aprox\.?|grátis|aproximadamente|cerca de)\b`,
in backtracking order (`emb\.?` tries the dot first, then backtracks). -/
def fillerAlts : List (List Char) :=
  [("emb.".toList), ("emb".toList), ("quant. mínima =".toList),
   ("aprox.".toList), ("aprox".toList), ("grátis".toList),
   ("aproximadamente".toList), ("cerca de".toList)]

/-- Try the filler alternatives at the current position: `prev` is the
character before the position (for the leading `\b`).  On success, returns
the last consumed character and the number of consumed characters minus
one (so a match always consumes at least one character). -/
def tryFiller (prev : Option Char) (s : List Char) : Option (Char × ℕ) :=
  match s with
  | [] => none
  | c :: _ =>
    if wordBoundary prev (some c) then
      (fillerAlts.filterMap (fun alt =>
        if alt.isPrefixOf s then
          match alt.getLast? with
          | some lc =>
            if wordBoundary (some lc) ((s.drop alt.length).head?) then
              some (lc, alt.length - 1)
            else none
          | none => none
        else none)).head?
    else none

/-- Fuel-based worker for `subFillers`; every step consumes at least one
character, so fuel equal to the input length always suffices. -/
def subFillersF : ℕ → Option Char → List Char → List Char
  | 0, _, _ => []
  | _, _, [] => []
  | fuel + 1, prev, c :: t =>
    match tryFiller prev (c :: t) with
    | some (lc, k) => subFillersF fuel (some lc) (t.drop k)
    | none => c :: subFillersF fuel (some c) t

/-- Model of `re.sub(filler_regex, '', s)`: delete every filler occurrence, scanning
left to right. -/
def subFillers (prev : Option Char) (s : List Char) : List Char :=
  subFillersF s.length prev s

/-- Atoms of the quantity regexes: literal text, greedy `\s*`, a captured
`(\d+)`, a captured `(\d+[\.,]?\d*)`, a captured alternation such as
`(g|gr|ml|l|lt|cl|kg)`, and an optional literal such as `(?:emb\.)?`. -/
inductive RAtom where
  | lit (l : List Char)
  | ws
  | capDigits
  | capNum
  | capAlt (alts : List (List Char))
  | optLit (l : List Char)

/-- Length of the longest prefix of `s` satisfying `p`. -/
def leadCount (p : Char → Bool) : List Char → ℕ
  | [] => 0
  | c :: t => if p c then leadCount p t + 1 else 0

/-- The ways one atom can consume input, in backtracking priority order:
each entry is (captured groups contributed, remaining input). -/
def candidates : RAtom → List Char → List (List (List Char) × List Char)
  | .lit l, s =>
    if l.isPrefixOf s then [([], s.drop l.length)] else []
  | .ws, s =>
    let m := leadCount isSpaceChar s
    (List.range (m + 1)).map (fun i => ([], s.drop (m - i)))
  | .capDigits, s =>
    let m := leadCount Char.isDigit s
    if m = 0 then []
    else (List.range m).map (fun i => ([s.take (m - i)], s.drop (m - i)))
  | .capNum, s =>
    let m := leadCount Char.isDigit s
    if m = 0 then []
    else
      (List.range m).flatMap (fun i =>
        let k1 := m - i
        let d1 := s.take k1
        let s1 := s.drop k1
        let withSep :=
          match s1 with
          | c :: s2 =>
            if c = '.' || c = ',' then
              let m2 := leadCount Char.isDigit s2
              (List.range (m2 + 1)).map (fun j =>
                ([d1 ++ c :: s2.take (m2 - j)], s2.drop (m2 - j)))
            else []
          | [] => []
        withSep ++ [([d1], s1)])
  | .capAlt alts, s =>
    alts.foldr (fun alt acc =>
      if alt.isPrefixOf s then ([alt], s.drop alt.length) :: acc else acc) []
  | .optLit l, s =>
    if l.isPrefixOf s then [([], s.drop l.length), ([], s)] else [([], s)]

/-- All ways a sequence of atoms matches a prefix of `s`, in backtracking
priority order; each entry is (captured groups, remaining input). -/
def matchAtoms : List RAtom → List Char → List (List (List Char) × List Char)
  | [], s => [([], s)]
  | a :: rest, s =>
    (candidates a s).flatMap (fun cr =>
      (matchAtoms rest cr.2).map (fun cr' => (cr.1 ++ cr'.1, cr'.2)))

/-- Model of `re.search` without anchors: try start positions left to right and
return the captures of the first successful match. -/
def searchAts (ats : List RAtom) : List Char → Option (List (List Char))
  | [] =>
    match matchAtoms ats [] with
    | r :: _ => some r.1
    | [] => none
  | c :: t =>
    match matchAtoms ats (c :: t) with
    | r :: _ => some r.1
    | [] => searchAts ats t

/-- Model of `re.search` for a pattern anchored with `^`: only position 0 is tried. -/
def searchAt0 (ats : List RAtom) (s : List Char) : Option (List (List Char)) :=
  match matchAtoms ats s with
  | r :: _ => some r.1
  | [] => none

/-- The unit alternation `(g|gr|ml|l|lt|cl|kg)` shared by the weight/volume
matchers, in the source's alternation order. -/
def unitAlts : List (List Char) :=
  [("g".toList), ("gr".toList), ("ml".toList), ("l".toList),
   ("lt".toList), ("cl".toList), ("kg".toList)]

/-- The dosage-noun alternation `(comprimidos|cápsulas|drageias|doses)`. -/
def nounAlts : List (List Char) :=
  [("comprimidos".toList), ("cápsulas".toList), ("drageias".toList),
   ("doses".toList)]

/-- Pattern `(\d+[\.,]?\d*)\s*(g|gr|ml|l|lt|cl|kg)\s*\((\d+)\s*un\)` — e.g.
`"1,075 gr (38 un)"`. -/
def pat1 : List RAtom :=
  [.capNum, .ws, .capAlt unitAlts, .ws, .lit ("(".toList), .capDigits, .ws,
   .lit ("un".toList), .lit (")".toList)]

/-- Pattern `peso\s*escorrido\s*(\d+)\s*(g|gr|ml|l|lt|cl|kg)`. -/
def pat2 : List RAtom :=
  [.lit ("peso".toList), .ws, .lit ("escorrido".toList), .ws, .capDigits,
   .ws, .capAlt unitAlts]

/-- Pattern `(\d+)\s*x\s*(\d+[\.,]?\d*)\s*(g|gr|ml|l|lt|cl|kg)` — e.g. `"12 x 1 lt"`. -/
def pat3 : List RAtom :=
  [.capDigits, .ws, .lit ("x".toList), .ws, .capNum, .ws, .capAlt unitAlts]

/-- Pattern `(\d+)\s*un\s*\+\s*(\d+)` — e.g. `"100 un + 20 GRÁTIS"`. -/
def pat4 : List RAtom :=
  [.capDigits, .ws, .lit ("un".toList), .ws, .lit ("+".toList), .ws,
   .capDigits]

/-- Pattern `(\d+)\s*x\s*(?:emb\.)?\s*(\d+)\s*un` — e.g. `"2 x emb. 10 un"`. -/
def pat5 : List RAtom :=
  [.capDigits, .ws, .lit ("x".toList), .ws, .optLit ("emb.".toList), .ws,
   .capDigits, .ws, .lit ("un".toList)]

/-- Pattern `^(\d+)\s*un` — e.g. `"40 un"` (anchored). -/
def pat6 : List RAtom :=
  [.capDigits, .ws, .lit ("un".toList)]

/-- Pattern `(\d+[\.,]?\d*)\s*(g|gr|ml|l|lt|cl|kg)` — e.g. `"200g"`, `"1.5kg"`. -/
def pat7 : List RAtom :=
  [.capNum, .ws, .capAlt unitAlts]

/-- Pattern `emb\.?\s*(\d+)\s*(comprimidos|cápsulas|drageias|doses)`. -/
def pat8 : List RAtom :=
  [.lit ("emb".toList), .optLit (".".toList), .ws, .capDigits, .ws,
   .capAlt nounAlts]

/-- Pattern `(\d+)\s*(comprimidos|cápsulas|drageias|doses)` — e.g. `"90 cápsulas"`. -/
def pat9 : List RAtom :=
  [.capDigits, .ws, .capAlt nounAlts]

/-- Model of `convert_to_base_unit(value, unit)`: kg → ×1000 g, l/lt → ×1000 ml,
cl → ×10 ml, otherwise unchanged. -/
def convert_to_base_unit (v : ℚ) (unit : List Char) : ℚ :=
  let u := lowerL unit
  if u = "kg".toList then v * 1000
  else if u = "l".toList ∨ u = "lt".toList then v * 1000
  else if u = "cl".toList then v * 10
  else v

/-- Model of `standardize_unit(unit)`: g/gr/kg → `"g"`, ml/l/lt/cl → `"ml"`,
otherwise `"UN"`. -/
def standardize_unit (unit : List Char) : List Char :=
  let u := lowerL unit
  if u = "g".toList ∨ u = "gr".toList ∨ u = "kg".toList then "g".toList
  else if u = "ml".toList ∨ u = "l".toList ∨ u = "lt".toList ∨ u = "cl".toList
    then "ml".toList
  else "UN".toList

/-- The `{quantity_value, quantity_unit, quantity_items, quantity_total}`
dictionary returned by `standardize_quantity`. -/
structure QResult where
  quantity_value : ℚ
  quantity_unit : List Char
  quantity_items : ℕ
  quantity_total : ℚ

/-- The default `empty_result()`: `{value: 1, unit: "un", items: 1, total: 1}`. -/
def empty_result : QResult :=
  ⟨1, "un".toList, 1, 1⟩

/-- Python `int(s)` on a captured group: digits only, else raises. -/
def intParse (l : List Char) : Option ℕ :=
  if l ≠ [] ∧ l.all Char.isDigit then some (digitsNat l) else none

/-- Model of `float(m[i].replace(',', '.'))` on a captured group. -/
def floatOfCap (l : List Char) : Option ℚ :=
  Pipelines.floatParse (l.map Pipelines.commaToDot)

/-- Group `i` of a capture list (`m[i+1]` in the source). -/
def grp (caps : List (List Char)) (i : ℕ) : List Char :=
  caps.getD i []

/-- Processor of `pat1`: `value = convert(float(m[1]), m[2]) / int(m[3])`,
`items = int(m[3])`, `total = convert(float(m[1]), m[2])`.  Division by an
`int(m[3])` of zero raises `ZeroDivisionError`, modelled as `none`. -/
def proc1 (caps : List (List Char)) : Option QResult :=
  match floatOfCap (grp caps 0), intParse (grp caps 2) with
  | some v, some n =>
    if n = 0 then none
    else
      some ⟨convert_to_base_unit v (grp caps 1) / n,
            standardize_unit (grp caps 1), n, convert_to_base_unit v (grp caps 1)⟩
  | _, _ => none

/-- Processor of `pat2`: a single weight, `items = 1`. -/
def proc2 (caps : List (List Char)) : Option QResult :=
  match floatOfCap (grp caps 0) with
  | some v =>
    some ⟨convert_to_base_unit v (grp caps 1), standardize_unit (grp caps 1),
          1, convert_to_base_unit v (grp caps 1)⟩
  | none => none

/-- Processor of `pat3`: `items = int(m[1])`, `value = convert(float(m[2]),
m[3])`, `total = int(m[1]) * value`. -/
def proc3 (caps : List (List Char)) : Option QResult :=
  match intParse (grp caps 0), floatOfCap (grp caps 1) with
  | some n, some v =>
    some ⟨convert_to_base_unit v (grp caps 2), standardize_unit (grp caps 2),
          n, (n : ℚ) * convert_to_base_unit v (grp caps 2)⟩
  | _, _ => none

/-- Processor of `pat4`: bonus units are summed, `items = 1`. -/
def proc4 (caps : List (List Char)) : Option QResult :=
  match intParse (grp caps 0), intParse (grp caps 1) with
  | some a, some b =>
    some ⟨(a : ℚ) + (b : ℚ), "un".toList, 1, (a : ℚ) + (b : ℚ)⟩
  | _, _ => none

/-- Processor of `pat5`: `value = int(m[2])`, `items = int(m[1])`,
`total = int(m[1]) * int(m[2])`. -/
def proc5 (caps : List (List Char)) : Option QResult :=
  match intParse (grp caps 0), intParse (grp caps 1) with
  | some n, some m =>
    some ⟨(m : ℚ), "un".toList, n, (n : ℚ) * (m : ℚ)⟩
  | _, _ => none

/-- Processor of `pat6`: a leading bare unit count. -/
def proc6 (caps : List (List Char)) : Option QResult :=
  match intParse (grp caps 0) with
  | some n => some ⟨(n : ℚ), "un".toList, 1, (n : ℚ)⟩
  | none => none

/-- Processor of `pat7`: a plain weight/volume, `items = 1`. -/
def proc7 (caps : List (List Char)) : Option QResult :=
  match floatOfCap (grp caps 0) with
  | some v =>
    some ⟨convert_to_base_unit v (grp caps 1), standardize_unit (grp caps 1),
          1, convert_to_base_unit v (grp caps 1)⟩
  | none => none

/-- Processor of `pat8`: `emb. N <dosage-noun>`, bare count. -/
def proc8 (caps : List (List Char)) : Option QResult :=
  match intParse (grp caps 0) with
  | some n => some ⟨(n : ℚ), "un".toList, 1, (n : ℚ)⟩
  | none => none

/-- Processor of `pat9`: `N <dosage-noun>`, bare count. -/
def proc9 (caps : List (List Char)) : Option QResult :=
  match intParse (grp caps 0) with
  | some n => some ⟨(n : ℚ), "un".toList, 1, (n : ℚ)⟩
  | none => none

/-- The first-match-wins cascade over the nine shape matchers
(`standardize_quantity`, lines 135–223), applied to the lower-cased,
filler-stripped quantity string; `none` models an uncaught exception inside
a processor. -/
def standardize_core (qs : List Char) : Option QResult :=
  match searchAts pat1 qs with
  | some c => proc1 c
  | none =>
  match searchAts pat2 qs with
  | some c => proc2 c
  | none =>
  match searchAts pat3 qs with
  | some c => proc3 c
  | none =>
  match searchAts pat4 qs with
  | some c => proc4 c
  | none =>
  match searchAts pat5 qs with
  | some c => proc5 c
  | none =>
  match searchAt0 pat6 qs with
  | some c => proc6 c
  | none =>
  match searchAts pat7 qs with
  | some c => proc7 c
  | none =>
  match searchAts pat8 qs with
  | some c => proc8 c
  | none =>
  match searchAts pat9 qs with
  | some c => proc9 c
  | none => some empty_result

/-- The runtime type of the `quantity_str` argument: `int` (the numeric
case the post-processing pass produces; its `f"{...}"` formatting is the
decimal digit string), a `str`, or anything else (`None`/`NaN`). -/
inductive QInput where
  | num (n : ℕ)
  | str (s : List Char)
  | other

/-- The token synthesized for numeric input from the
`secondary_price_unit` hint: mass hint `'KGM'` → grams, volume hint
`'LTR'` → millilitres, otherwise bare units. -/
def numToken (n : ℕ) (hint : Option (List Char)) : List Char :=
  if hint = some ("KGM".toList) then Nat.toDigits 10 n ++ "g".toList
  else if hint = some ("LTR".toList) then Nat.toDigits 10 n ++ "ml".toList
  else Nat.toDigits 10 n ++ "un".toList

/-- Lower-case, strip, remove fillers, strip — the preprocessing of
`standardize_quantity` before the matcher cascade. -/
def prepQuantity (s : List Char) : List Char :=
  stripStr (subFillers none (stripStr (lowerL s)))

/-- Model of `standardize_quantity(quantity_str, secondary_price_unit)`
(utilities/qnt_brand_extraction.py, 91–223).  `none` models an uncaught
exception (the `ZeroDivisionError` of `proc1`). -/
def standardize_quantity (q : QInput) (hint : Option (List Char)) :
    Option QResult :=
  match q with
  | .num n => standardize_core (prepQuantity (numToken n hint))
  | .str s =>
    if s = [] then some empty_result
    else standardize_core (prepQuantity s)
  | .other => some empty_result

end QntExtraction

namespace CategoryNorm

/-!
Embedding of `utilities/category_normalizer.py`.  The mapping tables are
the state of a `CategoryNormalizer` after `_load_mappings`; the JSON
mapping file itself is data outside `src/`, so concrete tables used in
witnesses are modelled from the spec.  Category values are
`Option (List Char)`: `none` models Python `None`, and the empty string is
the other falsy value.
-/

/-- Python truthiness of an optional string. -/
def falsy : Option (List Char) → Bool
  | none => true
  | some s => s.isEmpty

/-- Python's `needle in hay` on strings: contiguous-substring test. -/
def isSubstring (needle : List Char) : List Char → Bool
  | [] => needle.isPrefixOf []
  | c :: t => needle.isPrefixOf (c :: t) || isSubstring needle t

/-- The mapping state of a `CategoryNormalizer` after `_load_mappings`:
`reverse_category_mapping` (lower-cased alias → canonical category, in
dict insertion order), `sub_category_mapping` (canonical sub-category →
aliases) and `category_subcategory_relationships` (canonical category →
valid canonical sub-categories). -/
structure CatMapping where
  reverse_category_mapping : List (List Char × List Char)
  sub_category_mapping : List (List Char × List (List Char))
  category_subcategory_relationships : List (List Char × List (List Char))

/-- The direct lookup of `_get_normalized_category`:
`self.reverse_category_mapping.get(old_category.lower())`, kept only when
it passes the `if normalized:` truthiness test. -/
def directCategoryLookup (M : CatMapping) (cl : List Char) :
    Option (List Char) :=
  match List.lookup cl M.reverse_category_mapping with
  | some n => if n = [] then none else some n
  | none => none

/-- The partial-match loop of `_get_normalized_category`: the first alias
pattern containing, or contained in, the lower-cased value wins; otherwise
the original value passes through. -/
def categoryFallback (M : CatMapping) (cl c : List Char) :
    Option (List Char) :=
  match M.reverse_category_mapping.find?
      (fun pr => isSubstring pr.1 cl || isSubstring cl pr.1) with
  | some pr => some pr.2
  | none => some c

/-- Model of `CategoryNormalizer._get_normalized_category`
(utilities/category_normalizer.py, 53–68): falsy input → `None`; direct
lookup of the lower-cased value; then substring containment against every
known alias in either direction; then pass-through. -/
def getNormalizedCategory (M : CatMapping) (v : Option (List Char)) :
    Option (List Char) :=
  match v with
  | none => none
  | some c =>
    if c = [] then none
    else
      match directCategoryLookup M (lowerL c) with
      | some n => some n
      | none => categoryFallback M (lowerL c) c

/-- Model of `CategoryNormalizer._is_subcategory_match`: case-insensitive equality
or substring containment in either direction; false when either side is
falsy. -/
def isSubcategoryMatch (s1 s2 : List Char) : Bool :=
  if s1 = [] || s2 = [] then false
  else
    let a := lowerL s1
    let b := lowerL s2
    a == b || isSubstring a b || isSubstring b a

/-- Model of `CategoryNormalizer._get_normalized_subcategory`
(utilities/category_normalizer.py, 70–92): falsy sub-category or category
short-circuits; otherwise search the sub-categories valid for the resolved
category first, then all sub-categories that are valid for it, then pass
through. -/
def getNormalizedSubcategory (M : CatMapping) (sub cat : Option (List Char)) :
    Option (List Char) :=
  if falsy sub || falsy cat then
    if falsy sub then none else sub
  else
    match sub, cat with
    | some s, some c =>
      let valids := (List.lookup c M.category_subcategory_relationships).getD []
      match valids.find? (fun v =>
          ((List.lookup v M.sub_category_mapping).getD []).any
            (fun old => isSubcategoryMatch s old)) with
      | some v => some v
      | none =>
        match M.sub_category_mapping.find? (fun pr =>
            valids.contains pr.1 && pr.2.any (fun old => isSubcategoryMatch s old)) with
        | some pr => some pr.1
        | none => some s
    | _, _ => none

/-- Model of `CategoryNormalizer.normalize_categories` on one row's
(category, sub_category) pair (utilities/category_normalizer.py, 176–186):
the sub-category is resolved in the context of the already-normalized
category. -/
def normalize_categories (M : CatMapping)
    (p : Option (List Char) × Option (List Char)) :
    Option (List Char) × Option (List Char) :=
  let nc := getNormalizedCategory M p.1
  (nc, getNormalizedSubcategory M p.2 nc)

/-- Modelled from the spec: the repository's `category_mapping.json` is not
under `src/`, so this concrete mapping realises the spec's stated data
discipline that "canonical names are themselves present as their own
aliases" — each canonical category appears (lower-cased) as its own alias,
and each canonical sub-category is an alias of itself. -/
def specMapping : CatMapping where
  reverse_category_mapping :=
    [(("mercearia".toList), ("Mercearia".toList)),
     (("bebidas".toList), ("Bebidas".toList)),
     (("laticinios".toList), ("Laticinios".toList))]
  sub_category_mapping :=
    [(("Arroz".toList), [("arroz".toList)]),
     (("Leite".toList), [("leite".toList)]),
     (("Vinho".toList), [("vinho".toList), ("vinhos".toList)])]
  category_subcategory_relationships :=
    [(("Mercearia".toList), [("Arroz".toList)]),
     (("Bebidas".toList), [("Vinho".toList)]),
     (("Laticinios".toList), [("Leite".toList)])]

end CategoryNorm

namespace Spiders

/-- Per-source category counters of the progress file
(`total_categories` / `scraped_categories` objects). -/
structure SourceCounts where
  continente : ℕ
  pingo_doce : ℕ
  auchan : ℕ

/-- The fields of the progress-file JSON object
(`scraper/spiders/spiders_progress.py`, `Progress.progress_file_default`),
with the per-category bookkeeping dictionaries abstracted to lists of
identifiers. -/
structure ProgressState where
  continente_categories_scraped : List (List Char)
  pingo_doce_categories_scraped : List (List Char)
  auchan_categories_scraped : List (List Char)
  activate_sellenium_to_get_categories_links : ℕ
  database_url : List Char
  scraper_init_time : List Char
  scraped_items : ℕ
  total_categories : SourceCounts
  scraped_categories : SourceCounts

/-- Model of `Progress.progress_file_default`: the fresh template written by
`create_progress_file` — empty scraped lists, empty url/timestamp, and all
counters zero. -/
def progress_file_default : ProgressState where
  continente_categories_scraped := []
  pingo_doce_categories_scraped := []
  auchan_categories_scraped := []
  activate_sellenium_to_get_categories_links := 1
  database_url := []
  scraper_init_time := []
  scraped_items := 0
  total_categories := ⟨0, 0, 0⟩
  scraped_categories := ⟨0, 0, 0⟩

/-- The three scraped sources. -/
inductive Source where
  | pingo_doce
  | continente
  | auchan

/-- Scraped-category count of one source. -/
def scrapedOf (p : ProgressState) : Source → ℕ
  | .pingo_doce => p.scraped_categories.pingo_doce
  | .continente => p.scraped_categories.continente
  | .auchan => p.scraped_categories.auchan

/-- Total-category count of one source. -/
def totalOf (p : ProgressState) : Source → ℕ
  | .pingo_doce => p.total_categories.pingo_doce
  | .continente => p.total_categories.continente
  | .auchan => p.total_categories.auchan

end Spiders

namespace SaveToDatabase

/-- Model of `SaveToDatabase.is_scraping_complete` (scraper/pipelines.py, 181–188),
over a loaded progress state. -/
def is_scraping_complete (p : Spiders.ProgressState) : Bool :=
  decide (p.scraped_categories.pingo_doce ≥ p.total_categories.pingo_doce) &&
  decide (p.scraped_categories.continente ≥ p.total_categories.continente) &&
  decide (p.scraped_categories.auchan ≥ p.total_categories.auchan)

/-- One buffered item as it reaches `SaveToDatabase._commit_batch`: by this
point the price fields are floats (modelled as `ℚ`; the source's
`float(x) if x else 0.0` is the identity on them), and
`before_discount_price` may be absent (`item.get(..., 0.0)`). -/
structure BatchItem where
  store : List Char
  name : List Char
  category : List Char
  sub_category : List Char
  primary_price : ℚ
  secondary_price : ℚ
  before_discount_price : Option ℚ
  has_discount : Bool

/-- The `Product` attributes staged by `_commit_batch` (the fields the
claims reason about; the remaining quantity/image columns are copied
verbatim from the item in the same way). -/
structure StagedProduct where
  storeId : ℕ
  category : List Char
  sub_category : List Char
  name : List Char
  primaryPrice : ℚ
  beforeDiscountPrice : ℚ
  hasDiscount : Bool
  secondaryPrice : ℚ

/-- The line appended to `utilities/txt/skiped_products.txt`:
`f"{item['store']} || {item['name']} \n"`. -/
def skipEntry (it : BatchItem) : List Char :=
  it.store ++ " || ".toList ++ it.name ++ " \n".toList

/-- The staged product built from an item and its resolved store id. -/
def stageProduct (sid : ℕ) (it : BatchItem) : StagedProduct :=
  ⟨sid, it.category, it.sub_category, it.name, it.primary_price,
   it.before_discount_price.getD 0, it.has_discount, it.secondary_price⟩

/-- The item loop of `SaveToDatabase._commit_batch` (scraper/pipelines.py,
263–332): `db` is the storage's store-name → id relation, `cache` the
per-flush `store_cache` dictionary.  An unknown store skips the item with
no skip-list entry; a zero primary or secondary price skips it and appends
a skip-list entry; otherwise the product is staged.  Returns the staged
products and the appended skip-list lines, in order. -/
def commitLoop (db : List Char → Option ℕ) :
    List (List Char × ℕ) → List BatchItem →
    List StagedProduct × List (List Char)
  | _, [] => ([], [])
  | cache, it :: rest =>
    let look : Option ℕ × List (List Char × ℕ) :=
      match List.lookup it.store cache with
      | some sid => (some sid, cache)
      | none =>
        match db it.store with
        | none => (none, cache)
        | some sid => (some sid, (it.store, sid) :: cache)
    match look with
    | (none, cache') => commitLoop db cache' rest
    | (some sid, cache') =>
      if it.primary_price = 0 ∨ it.secondary_price = 0 then
        let r := commitLoop db cache' rest
        (r.1, skipEntry it :: r.2)
      else
        let r := commitLoop db cache' rest
        (stageProduct sid it :: r.1, r.2)

/-- Model of `_commit_batch` on a buffered batch, starting from the empty per-flush
store cache. -/
def commit_batch (db : List Char → Option ℕ) (batch : List BatchItem) :
    List StagedProduct × List (List Char) :=
  commitLoop db [] batch

/-- Specification-side description of the staged products: the items whose
store is known and whose primary and secondary prices are both nonzero,
in order. -/
def stagedSpec (db : List Char → Option ℕ) (batch : List BatchItem) :
    List StagedProduct :=
  batch.filterMap (fun it =>
    match db it.store with
    | none => none
    | some sid =>
      if it.primary_price = 0 ∨ it.secondary_price = 0 then none
      else some (stageProduct sid it))

/-- Specification-side description of the skip-list lines: one entry per
item with a known store and a zero primary or secondary price, in order. -/
def skippedSpec (db : List Char → Option ℕ) (batch : List BatchItem) :
    List (List Char) :=
  (batch.filter (fun it =>
    (db it.store).isSome &&
      decide (it.primary_price = 0 ∨ it.secondary_price = 0))).map skipEntry

end SaveToDatabase

/-! ### Shared helper lemmas -/

theorem lookup_mem {α β : Type} [BEq α] [LawfulBEq α] {l : List (α × β)}
    {k : α} {v : β} (h : List.lookup k l = some v) : (k, v) ∈ l := by
  induction l with
  | nil => simp [List.lookup] at h
  | cons p t ih =>
    obtain ⟨a, b⟩ := p
    rw [List.lookup] at h
    cases he : k == a with
    | true =>
      simp only [he] at h
      obtain rfl := Option.some.inj h
      obtain rfl := eq_of_beq he
      exact List.mem_cons_self _ _
    | false =>
      simp only [he] at h
      exact List.mem_cons_of_mem _ (ih h)

theorem dropWhile_eq_self_of {p : Char → Bool} {l : List Char}
    (h : ∀ c ∈ l, p c = false) : l.dropWhile p = l := by
  cases l with
  | nil => rfl
  | cons c t => simp [List.dropWhile_cons, h c (List.mem_cons_self _ _)]

theorem stripStr_eq_self {l : List Char}
    (h : ∀ c ∈ l, isSpaceChar c = false) : stripStr l = l := by
  unfold stripStr
  rw [dropWhile_eq_self_of h, dropWhile_eq_self_of, List.reverse_reverse]
  intro c hc
  exact h c (List.mem_reverse.mp hc)

theorem isDigit_not_space {c : Char} (h : c.isDigit = true) :
    isSpaceChar c = false := by
  have h1 : c ≠ ' ' := by rintro rfl; exact absurd h (by decide)
  have h2 : c ≠ '\t' := by rintro rfl; exact absurd h (by decide)
  have h3 : c ≠ '\n' := by rintro rfl; exact absurd h (by decide)
  have h4 : c ≠ '\r' := by rintro rfl; exact absurd h (by decide)
  simp [isSpaceChar, h1, h2, h3, h4]

theorem isDigit_ne_comma {c : Char} (h : c.isDigit = true) : c ≠ ',' := by
  rintro rfl
  exact absurd h (by decide)

theorem isDigit_ne_dot {c : Char} (h : c.isDigit = true) : c ≠ '.' := by
  rintro rfl
  exact absurd h (by decide)

/-! ### Results about the price parser (`ProductScraperPipeline`) -/

namespace Pipelines

theorem floatVal_nonneg (p : List Char × List Char) : 0 ≤ floatVal p := by
  unfold floatVal
  positivity

theorem roundHalfEven_nonneg {q : ℚ} (h : 0 ≤ q) : 0 ≤ roundHalfEven q := by
  unfold roundHalfEven
  have hf : (0 : ℤ) ≤ ⌊q⌋ := Int.floor_nonneg.mpr h
  split
  · exact hf
  · split
    · omega
    · split
      · exact hf
      · omega

theorem round2_nonneg {q : ℚ} (h : 0 ≤ q) : 0 ≤ round2 q := by
  unfold round2
  have : (0 : ℤ) ≤ roundHalfEven (q * 100) :=
    roundHalfEven_nonneg (by positivity)
  positivity

theorem round2_two_decimals (q : ℚ) : ∃ n : ℤ, round2 q = (n : ℚ) / 100 :=
  ⟨roundHalfEven (q * 100), rfl⟩

theorem parse_price_str_some {s i f : List Char}
    (h : floatParseParts (branchTransform (stripStr (List.filter keptChar s)))
      = some (i, f)) :
    parse_price (.str s) = round2 (floatVal (i, f)) := by
  simp only [parse_price, floatParse, h, Option.map_some']

theorem parse_price_str_none {s : List Char}
    (h : floatParseParts (branchTransform (stripStr (List.filter keptChar s)))
      = none) :
    parse_price (.str s) = 0 := by
  simp only [parse_price, floatParse, h, Option.map_none']

/-- C2, amended: for every string (and non-numeric) input `_parse_price`
returns a two-decimal value that is at least 0, and every result has two
decimal places; numeric input is rounded and returned directly, which
preserves a negative sign instead of clamping at 0. -/
theorem parse_price_nonneg_two_decimals :
    (∀ s : List Char, 0 ≤ parse_price (.str s))
    ∧ (∀ v : PriceVal, ∃ n : ℤ, parse_price v = (n : ℚ) / 100)
    ∧ (∀ q : ℚ, parse_price (.num q) = round2 q)
    ∧ parse_price .other = 0 := by
  refine ⟨?_, ?_, fun q => rfl, rfl⟩
  · intro s
    cases h : floatParseParts (branchTransform (stripStr (List.filter keptChar s))) with
    | none => rw [parse_price_str_none h]
    | some p =>
      obtain ⟨i, f⟩ := p
      rw [parse_price_str_some h]
      exact round2_nonneg (floatVal_nonneg _)
  · intro v
    cases v with
    | num q => exact round2_two_decimals q
    | str s =>
      cases h : floatParseParts (branchTransform (stripStr (List.filter keptChar s))) with
      | none => exact ⟨0, by rw [parse_price_str_none h]; norm_num⟩
      | some p =>
        obtain ⟨i, f⟩ := p
        rw [parse_price_str_some h]
        exact round2_two_decimals _
    | other => exact ⟨0, by norm_num [parse_price]⟩

/-- C2, counterexample: the numeric input `-1` is returned as `-1`, which
is negative, contradicting "always ≥ 0" for every input value. -/
theorem parse_price_negative_numeric_cex :
    parse_price (.num (-1)) = -1 ∧ parse_price (.num (-1)) < 0 := by
  constructor <;> norm_num [parse_price, round2, roundHalfEven]

/-! #### Separator disambiguation: list-level helper lemmas -/

theorem forall_mem_append_cons {P : Char → Prop} {a b : List Char} {x : Char}
    (ha : ∀ c ∈ a, P c) (hx : P x) (hb : ∀ c ∈ b, P c) :
    ∀ c ∈ a ++ x :: b, P c := by
  intro c hcm
  rcases List.mem_append.mp hcm with h | h
  · exact ha _ h
  · rcases List.mem_cons.mp h with rfl | h'
    · exact hx
    · exact hb _ h'

theorem not_mem_of_digits {ch : Char} (hch : ch.isDigit = false)
    {l : List Char} (h : AllDigits l) : ch ∉ l := by
  intro hm
  have := h ch hm
  rw [this] at hch
  exact absurd hch (by simp)

theorem comma_not_mem {l : List Char} (h : AllDigits l) : ',' ∉ l :=
  not_mem_of_digits (by decide) h

theorem dot_not_mem {l : List Char} (h : AllDigits l) : '.' ∉ l :=
  not_mem_of_digits (by decide) h

theorem AllDigits.append {a b : List Char} (ha : AllDigits a) (hb : AllDigits b) :
    AllDigits (a ++ b) := by
  intro c hc
  rcases List.mem_append.mp hc with h | h
  · exact ha _ h
  · exact hb _ h

theorem AllDigits.flatten {ps : List (List Char)}
    (h : ∀ p ∈ ps, AllDigits p) : AllDigits ps.flatten := by
  intro c hcm
  rw [List.mem_flatten] at hcm
  obtain ⟨p, hp, hc⟩ := hcm
  exact h p hp c hc

theorem rfind_of_not_mem {ch : Char} {l : List Char} (h : ch ∉ l) :
    rfind ch l = -1 := by
  induction l with
  | nil => rfl
  | cons c t ih =>
    have ht : ch ∉ t := fun hm => h (List.mem_cons_of_mem _ hm)
    have hc : ¬ (c = ch) := fun e => h (e ▸ List.mem_cons_self _ _)
    simp only [rfind, ih ht]
    rw [if_neg (by norm_num), if_neg hc]

theorem rfind_nonneg_of_mem {ch : Char} {l : List Char} (h : ch ∈ l) :
    0 ≤ rfind ch l := by
  induction l with
  | nil => simp at h
  | cons c t ih =>
    simp only [rfind]
    by_cases hm : ch ∈ t
    · rw [if_pos (ih hm)]
      have := ih hm
      omega
    · rcases List.mem_cons.mp h with rfl | h'
      · rw [rfind_of_not_mem hm, if_neg (by norm_num), if_pos rfl]
      · exact absurd h' hm

theorem rfind_cons_of_mem {ch c : Char} {t : List Char} (h : ch ∈ t) :
    rfind ch (c :: t) = rfind ch t + 1 := by
  simp only [rfind]
  rw [if_pos (rfind_nonneg_of_mem h)]

theorem rfind_cons_self_of_not_mem {ch : Char} {t : List Char} (h : ch ∉ t) :
    rfind ch (ch :: t) = 0 := by
  simp only [rfind, rfind_of_not_mem h]
  norm_num

theorem rfind_append_of_mem {ch : Char} {l₂ : List Char} (h : ch ∈ l₂) :
    ∀ l₁ : List Char, rfind ch (l₁ ++ l₂) = l₁.length + rfind ch l₂ := by
  intro l₁
  induction l₁ with
  | nil => simp
  | cons c t ih =>
    have hmem : ch ∈ t ++ l₂ := List.mem_append_right _ h
    rw [List.cons_append, rfind_cons_of_mem hmem, ih]
    simp only [List.length_cons]
    push_cast
    ring

theorem rfind_append_of_not_mem {ch : Char} {l2 : List Char} (h : ch ∉ l2) :
    ∀ l1 : List Char, rfind ch (l1 ++ l2) = rfind ch l1 := by
  intro l1
  induction l1 with
  | nil =>
    rw [List.nil_append, rfind_of_not_mem h]
    rfl
  | cons c t ih =>
    rw [List.cons_append]
    simp only [rfind]
    rw [ih]

theorem rfind_lt_length (ch : Char) :
    ∀ l : List Char, rfind ch l < (l.length : ℤ) := by
  intro l
  induction l with
  | nil => simp [rfind]
  | cons c t ih =>
    simp only [rfind, List.length_cons]
    split
    · push_cast; omega
    · split <;> push_cast <;> omega

theorem splitOnChar_of_not_mem {ch : Char} {l : List Char} (h : ch ∉ l) :
    splitOnChar ch l = [l] := by
  induction l with
  | nil => rfl
  | cons c t ih =>
    have ht : ch ∉ t := fun hm => h (List.mem_cons_of_mem _ hm)
    have hc : ¬ (c = ch) := fun e => h (e ▸ List.mem_cons_self _ _)
    simp only [splitOnChar, ih ht]
    rw [if_neg hc]

theorem splitOnChar_append {ch : Char} {a t : List Char} (h : ch ∉ a) :
    splitOnChar ch (a ++ ch :: t) = a :: splitOnChar ch t := by
  induction a with
  | nil => simp [splitOnChar]
  | cons c a' ih =>
    have ha : ch ∉ a' := fun hm => h (List.mem_cons_of_mem _ hm)
    have hc : ¬ (c = ch) := fun e => h (e ▸ List.mem_cons_self _ _)
    rw [List.cons_append]
    simp only [splitOnChar, ih ha]
    rw [if_neg hc]

theorem filter_ne_eq_self {x : Char} {l : List Char} (h : ∀ c ∈ l, c ≠ x) :
    l.filter (fun c => ¬ (c = x)) = l :=
  List.filter_eq_self.mpr (fun a ha => by simp [h a ha])

theorem map_commaToDot_of_no_comma {l : List Char} (h : ∀ c ∈ l, c ≠ ',') :
    l.map commaToDot = l := by
  induction l with
  | nil => rfl
  | cons c t ih =>
    rw [List.map_cons, ih (fun c hc => h c (List.mem_cons_of_mem _ hc)),
      show commaToDot c = c from if_neg (h c (List.mem_cons_self _ _))]

theorem not_mem_joinSep {ch x : Char} (hne : x ≠ ch) :
    ∀ ps : List (List Char), (∀ p ∈ ps, x ∉ p) → x ∉ joinSep ch ps := by
  intro ps
  induction ps with
  | nil => intro _; simp [joinSep]
  | cons p ps' ih =>
    intro h
    cases ps' with
    | nil => exact h p (List.mem_cons_self _ _)
    | cons q rest =>
      show x ∉ p ++ ch :: joinSep ch (q :: rest)
      intro hm
      rcases List.mem_append.mp hm with hm' | hm'
      · exact h p (List.mem_cons_self _ _) hm'
      · rcases List.mem_cons.mp hm' with rfl | hm''
        · exact hne rfl
        · exact ih (fun r hr => h r (List.mem_cons_of_mem _ hr)) hm''

theorem filter_sep_joinSep {sep : Char} :
    ∀ ps : List (List Char), (∀ p ∈ ps, ∀ c ∈ p, c ≠ sep) ->
      (joinSep sep ps).filter (fun c => ¬ (c = sep)) = ps.flatten := by
  intro ps
  induction ps with
  | nil => intro _; rfl
  | cons p ps' ih =>
    intro h
    cases ps' with
    | nil =>
      show p.filter (fun c => ¬ (c = sep)) = List.flatten [p]
      rw [filter_ne_eq_self (h p (List.mem_cons_self _ _))]
      simp
    | cons q rest =>
      show (p ++ sep :: joinSep sep (q :: rest)).filter (fun c => ¬ (c = sep))
          = List.flatten (p :: q :: rest)
      rw [List.filter_append, filter_ne_eq_self (h p (List.mem_cons_self _ _)),
        List.filter_cons_of_neg (by simp),
        ih (fun r hr => h r (List.mem_cons_of_mem _ hr))]
      simp [List.flatten_cons]

theorem count_joinSep_concat {ch : Char} {lastp : List Char} (hlast : ch ∉ lastp) :
    ∀ ps : List (List Char), (∀ p ∈ ps, ch ∉ p) →
      (joinSep ch (ps ++ [lastp])).count ch = ps.length := by
  intro ps
  induction ps with
  | nil =>
    intro _
    simp only [List.nil_append, joinSep]
    rw [List.count_eq_zero.mpr hlast]
    rfl
  | cons p ps' ih =>
    intro h
    have hstep : joinSep ch ((p :: ps') ++ [lastp])
        = p ++ ch :: joinSep ch (ps' ++ [lastp]) := by
      cases ps' with
      | nil => rfl
      | cons q rest => rfl
    rw [hstep, List.count_append,
      List.count_eq_zero.mpr (h p (List.mem_cons_self _ _)), List.count_cons,
      ih (fun r hr => h r (List.mem_cons_of_mem _ hr))]
    simp

theorem splitOnChar_joinSep {ch : Char} :
    ∀ ps : List (List Char), ps ≠ [] → (∀ p ∈ ps, ch ∉ p) →
      splitOnChar ch (joinSep ch ps) = ps := by
  intro ps
  induction ps with
  | nil => intro h; exact absurd rfl h
  | cons p ps' ih =>
    intro _ h
    cases ps' with
    | nil => exact splitOnChar_of_not_mem (h p (List.mem_cons_self _ _))
    | cons q rest =>
      show splitOnChar ch (p ++ ch :: joinSep ch (q :: rest)) = _
      rw [splitOnChar_append (h p (List.mem_cons_self _ _)),
        ih (by simp) (fun r hr => h r (List.mem_cons_of_mem _ hr))]

theorem joinAllButLast_concat (ps : List (List Char)) (lastp : List Char) :
    joinAllButLast (ps ++ [lastp]) = ps.flatten ++ '.' :: lastp := by
  unfold joinAllButLast
  rw [List.getLast?_concat, List.dropLast_concat]

/-! #### Separator disambiguation: the four branch shapes -/

theorem branchTransform_dots_comma {ps : List (List Char)} {lastp : List Char}
    (hps : ∀ p ∈ ps, AllDigits p) (hlast : AllDigits lastp) (hne : ps ≠ []) :
    branchTransform (joinSep '.' ps ++ ',' :: lastp)
      = ps.flatten ++ '.' :: lastp := by
  have hsegdot : ∀ p ∈ ps, ∀ c ∈ p, c ≠ '.' :=
    fun p hp c hc => isDigit_ne_dot (hps p hp c hc)
  cases ps with
  | nil => exact absurd rfl hne
  | cons p ps' =>
    cases ps' with
    | nil =>
      have hnodot : '.' ∉ joinSep '.' [p] ++ ',' :: lastp := by
        intro hm
        rcases List.mem_append.mp hm with h | h
        · exact dot_not_mem (hps p (List.mem_cons_self _ _)) h
        · rcases List.mem_cons.mp h with h' | h'
          · exact absurd h' (by decide)
          · exact dot_not_mem hlast h'
      have hcount1 : (joinSep '.' [p] ++ ',' :: lastp).count ',' = 1 := by
        show (p ++ ',' :: lastp).count ',' = 1
        rw [List.count_append, List.count_cons,
          List.count_eq_zero.mpr (comma_not_mem (hps p (List.mem_cons_self _ _))),
          List.count_eq_zero.mpr (comma_not_mem hlast)]
        simp
      unfold branchTransform
      rw [if_neg (fun hand => absurd hand.2 hnodot),
        if_neg (by rw [hcount1]; omega),
        if_neg (by rw [List.count_eq_zero.mpr hnodot]; omega)]
      show List.map commaToDot (p ++ ',' :: lastp) = _
      rw [List.map_append,
        map_commaToDot_of_no_comma
          (fun x hx => isDigit_ne_comma (hps p (List.mem_cons_self _ _) x hx)),
        List.map_cons, (by decide : commaToDot ',' = '.'),
        map_commaToDot_of_no_comma (fun x hx => isDigit_ne_comma (hlast x hx))]
      simp
    | cons q rest =>
      have hcm : ',' ∈ joinSep '.' (p :: q :: rest) ++ ',' :: lastp :=
        List.mem_append_right _ (List.mem_cons_self _ _)
      have hdm : '.' ∈ joinSep '.' (p :: q :: rest) ++ ',' :: lastp := by
        apply List.mem_append_left
        show '.' ∈ p ++ '.' :: joinSep '.' (q :: rest)
        exact List.mem_append_right _ (List.mem_cons_self _ _)
      have hrc : rfind ',' (joinSep '.' (p :: q :: rest) ++ ',' :: lastp)
          = ((joinSep '.' (p :: q :: rest)).length : ℤ) := by
        rw [rfind_append_of_mem (List.mem_cons_self _ _),
          rfind_cons_self_of_not_mem (comma_not_mem hlast)]
        ring
      have hrd : rfind '.' (joinSep '.' (p :: q :: rest) ++ ',' :: lastp)
          = rfind '.' (joinSep '.' (p :: q :: rest)) := by
        apply rfind_append_of_not_mem
        intro hm
        rcases List.mem_cons.mp hm with h' | h'
        · exact absurd h' (by decide)
        · exact dot_not_mem hlast h'
      unfold branchTransform
      rw [if_pos ⟨hcm, hdm⟩,
        if_pos (by
          rw [hrc, hrd]
          have := rfind_lt_length '.' (joinSep '.' (p :: q :: rest))
          omega)]
      rw [List.filter_append, filter_sep_joinSep _ hsegdot,
        List.filter_cons_of_pos (by decide),
        filter_ne_eq_self (fun x hx => isDigit_ne_dot (hlast x hx)),
        List.map_append,
        map_commaToDot_of_no_comma
          (fun x hx => isDigit_ne_comma (AllDigits.flatten hps x hx)),
        List.map_cons, (by decide : commaToDot ',' = '.'),
        map_commaToDot_of_no_comma (fun x hx => isDigit_ne_comma (hlast x hx))]

theorem branchTransform_commas_dot {ps : List (List Char)} {lastp : List Char}
    (hps : ∀ p ∈ ps, AllDigits p) (hlast : AllDigits lastp) (hne : ps ≠ []) :
    branchTransform (joinSep ',' ps ++ '.' :: lastp)
      = ps.flatten ++ '.' :: lastp := by
  have hsegcomma : ∀ p ∈ ps, ∀ c ∈ p, c ≠ ',' :=
    fun p hp c hc => isDigit_ne_comma (hps p hp c hc)
  cases ps with
  | nil => exact absurd rfl hne
  | cons p ps' =>
    cases ps' with
    | nil =>
      have hnocomma : ',' ∉ joinSep ',' [p] ++ '.' :: lastp := by
        intro hm
        rcases List.mem_append.mp hm with h | h
        · exact comma_not_mem (hps p (List.mem_cons_self _ _)) h
        · rcases List.mem_cons.mp h with h' | h'
          · exact absurd h' (by decide)
          · exact comma_not_mem hlast h'
      have hcountd : (joinSep ',' [p] ++ '.' :: lastp).count '.' = 1 := by
        show (p ++ '.' :: lastp).count '.' = 1
        rw [List.count_append, List.count_cons,
          List.count_eq_zero.mpr (dot_not_mem (hps p (List.mem_cons_self _ _))),
          List.count_eq_zero.mpr (dot_not_mem hlast)]
        simp
      unfold branchTransform
      rw [if_neg (fun hand => absurd hand.1 hnocomma),
        if_neg (by rw [List.count_eq_zero.mpr hnocomma]; omega),
        if_neg (by rw [hcountd]; omega)]
      show List.map commaToDot (p ++ '.' :: lastp) = _
      rw [map_commaToDot_of_no_comma (by
          intro x hx
          rcases List.mem_append.mp hx with h | h
          · exact isDigit_ne_comma (hps p (List.mem_cons_self _ _) x h)
          · rcases List.mem_cons.mp h with rfl | h'
            · decide
            · exact isDigit_ne_comma (hlast x h'))]
      simp
    | cons q rest =>
      have hcm : ',' ∈ joinSep ',' (p :: q :: rest) ++ '.' :: lastp := by
        apply List.mem_append_left
        show ',' ∈ p ++ ',' :: joinSep ',' (q :: rest)
        exact List.mem_append_right _ (List.mem_cons_self _ _)
      have hdm : '.' ∈ joinSep ',' (p :: q :: rest) ++ '.' :: lastp :=
        List.mem_append_right _ (List.mem_cons_self _ _)
      have hrd : rfind '.' (joinSep ',' (p :: q :: rest) ++ '.' :: lastp)
          = ((joinSep ',' (p :: q :: rest)).length : ℤ) := by
        rw [rfind_append_of_mem (List.mem_cons_self _ _),
          rfind_cons_self_of_not_mem (dot_not_mem hlast)]
        ring
      have hrc : rfind ',' (joinSep ',' (p :: q :: rest) ++ '.' :: lastp)
          = rfind ',' (joinSep ',' (p :: q :: rest)) := by
        apply rfind_append_of_not_mem
        intro hm
        rcases List.mem_cons.mp hm with h' | h'
        · exact absurd h' (by decide)
        · exact comma_not_mem hlast h'
      unfold branchTransform
      rw [if_pos ⟨hcm, hdm⟩,
        if_neg (by
          rw [hrc, hrd]
          have := rfind_lt_length ',' (joinSep ',' (p :: q :: rest))
          omega)]
      rw [List.filter_append, filter_sep_joinSep _ hsegcomma,
        List.filter_cons_of_pos (by decide),
        filter_ne_eq_self (fun x hx => isDigit_ne_comma (hlast x hx))]

theorem branchTransform_comma_dot_comma {a b c d : List Char}
    (ha : AllDigits a) (hb : AllDigits b) (hc : AllDigits c) (hd : AllDigits d) :
    branchTransform (a ++ ',' :: (b ++ '.' :: (c ++ ',' :: d)))
      = a ++ '.' :: (b ++ (c ++ '.' :: d)) := by
  have hmc2 : ',' ∈ c ++ ',' :: d :=
    List.mem_append_right _ (List.mem_cons_self _ _)
  have hcm : ',' ∈ a ++ ',' :: (b ++ '.' :: (c ++ ',' :: d)) :=
    List.mem_append_right _ (List.mem_cons_self _ _)
  have hdm : '.' ∈ a ++ ',' :: (b ++ '.' :: (c ++ ',' :: d)) := by
    apply List.mem_append_right
    apply List.mem_cons_of_mem
    exact List.mem_append_right _ (List.mem_cons_self _ _)
  have hrc : rfind ',' (a ++ ',' :: (b ++ '.' :: (c ++ ',' :: d)))
      = (a.length : ℤ) + b.length + c.length + 2 := by
    rw [rfind_append_of_mem (List.mem_cons_self _ _),
      rfind_cons_of_mem (List.mem_append_right _ (List.mem_cons_of_mem _ hmc2)),
      rfind_append_of_mem (List.mem_cons_of_mem _ hmc2),
      rfind_cons_of_mem hmc2,
      rfind_append_of_mem (List.mem_cons_self _ _),
      rfind_cons_self_of_not_mem (comma_not_mem hd)]
    ring
  have hrd : rfind '.' (a ++ ',' :: (b ++ '.' :: (c ++ ',' :: d)))
      = (a.length : ℤ) + b.length + 1 := by
    rw [rfind_append_of_mem (by
        apply List.mem_cons_of_mem
        exact List.mem_append_right _ (List.mem_cons_self _ _)),
      rfind_cons_of_mem (List.mem_append_right _ (List.mem_cons_self _ _)),
      rfind_append_of_mem (List.mem_cons_self _ _),
      rfind_cons_self_of_not_mem (by
        intro hm
        rcases List.mem_append.mp hm with h | h
        · exact dot_not_mem hc h
        · rcases List.mem_cons.mp h with h' | h'
          · exact absurd h' (by decide)
          · exact dot_not_mem hd h')]
    ring
  unfold branchTransform
  rw [if_pos ⟨hcm, hdm⟩, if_pos (by rw [hrc, hrd]; omega)]
  rw [List.filter_append, filter_ne_eq_self (fun x hx => isDigit_ne_dot (ha x hx)),
    List.filter_cons_of_pos (by decide),
    List.filter_append, filter_ne_eq_self (fun x hx => isDigit_ne_dot (hb x hx)),
    List.filter_cons_of_neg (by decide),
    List.filter_append, filter_ne_eq_self (fun x hx => isDigit_ne_dot (hc x hx)),
    List.filter_cons_of_pos (by decide),
    filter_ne_eq_self (fun x hx => isDigit_ne_dot (hd x hx))]
  rw [List.map_append,
    map_commaToDot_of_no_comma (fun x hx => isDigit_ne_comma (ha x hx)),
    List.map_cons, (by decide : commaToDot ',' = '.'),
    List.map_append,
    map_commaToDot_of_no_comma (fun x hx => isDigit_ne_comma (hb x hx)),
    List.map_append,
    map_commaToDot_of_no_comma (fun x hx => isDigit_ne_comma (hc x hx)),
    List.map_cons, (by decide : commaToDot ',' = '.'),
    map_commaToDot_of_no_comma (fun x hx => isDigit_ne_comma (hd x hx))]

theorem branchTransform_joinSep_comma {ps : List (List Char)} {lastp : List Char}
    (hps : ∀ p ∈ ps, AllDigits p) (hlast : AllDigits lastp) (hne : ps ≠ []) :
    branchTransform (joinSep ',' (ps ++ [lastp]))
      = ps.flatten ++ '.' :: lastp := by
  have hnodot : '.' ∉ joinSep ',' (ps ++ [lastp]) := by
    apply not_mem_joinSep (by decide)
    intro p hp
    rcases List.mem_append.mp hp with h | h
    · exact dot_not_mem (hps p h)
    · rcases List.mem_cons.mp h with rfl | h'
      · exact dot_not_mem hlast
      · simp at h'
  have hcount : (joinSep ',' (ps ++ [lastp])).count ',' = ps.length :=
    count_joinSep_concat (comma_not_mem hlast) ps
      (fun p hp => comma_not_mem (hps p hp))
  unfold branchTransform
  rw [if_neg (fun hand => absurd hand.2 hnodot)]
  cases ps with
  | nil => exact absurd rfl hne
  | cons p ps' =>
    cases ps' with
    | nil =>
      rw [if_neg (by rw [hcount]; simp),
        if_neg (by rw [List.count_eq_zero.mpr hnodot]; omega)]
      show List.map commaToDot (p ++ ',' :: lastp) = _
      rw [List.map_append,
        map_commaToDot_of_no_comma
          (fun x hx => isDigit_ne_comma (hps p (List.mem_cons_self _ _) x hx)),
        List.map_cons, (by decide : commaToDot ',' = '.'),
        map_commaToDot_of_no_comma (fun x hx => isDigit_ne_comma (hlast x hx))]
      simp
    | cons q rest =>
      rw [if_pos (by rw [hcount]; simp)]
      rw [splitOnChar_joinSep _ (by simp) (by
          intro r hr
          rcases List.mem_append.mp hr with h | h
          · exact comma_not_mem (hps r h)
          · rcases List.mem_cons.mp h with rfl | h'
            · exact comma_not_mem hlast
            · simp at h'),
        joinAllButLast_concat]

theorem branchTransform_joinSep_dot {ps : List (List Char)} {lastp : List Char}
    (hps : ∀ p ∈ ps, AllDigits p) (hlast : AllDigits lastp) (hne : ps ≠ []) :
    branchTransform (joinSep '.' (ps ++ [lastp]))
      = ps.flatten ++ '.' :: lastp := by
  have hnocomma : ',' ∉ joinSep '.' (ps ++ [lastp]) := by
    apply not_mem_joinSep (by decide)
    intro p hp
    rcases List.mem_append.mp hp with h | h
    · exact comma_not_mem (hps p h)
    · rcases List.mem_cons.mp h with rfl | h'
      · exact comma_not_mem hlast
      · simp at h'
  have hcount : (joinSep '.' (ps ++ [lastp])).count '.' = ps.length :=
    count_joinSep_concat (dot_not_mem hlast) ps
      (fun p hp => dot_not_mem (hps p hp))
  unfold branchTransform
  rw [if_neg (fun hand => absurd hand.1 hnocomma),
    if_neg (by rw [List.count_eq_zero.mpr hnocomma]; omega)]
  cases ps with
  | nil => exact absurd rfl hne
  | cons p ps' =>
    cases ps' with
    | nil =>
      rw [if_neg (by rw [hcount]; simp)]
      show List.map commaToDot (p ++ '.' :: lastp) = _
      rw [map_commaToDot_of_no_comma (by
          intro x hx
          rcases List.mem_append.mp hx with h | h
          · exact isDigit_ne_comma (hps p (List.mem_cons_self _ _) x h)
          · rcases List.mem_cons.mp h with rfl | h'
            · decide
            · exact isDigit_ne_comma (hlast x h'))]
      simp
    | cons q rest =>
      rw [if_pos (by rw [hcount]; simp)]
      rw [splitOnChar_joinSep _ (by simp) (by
          intro r hr
          rcases List.mem_append.mp hr with h | h
          · exact dot_not_mem (hps r h)
          · rcases List.mem_cons.mp h with rfl | h'
            · exact dot_not_mem hlast
            · simp at h'),
        joinAllButLast_concat]

/-! #### Separator disambiguation: keeping, stripping, parsing -/

theorem floatParseParts_digits {x y : List Char} (hx : AllDigits x)
    (hy : AllDigits y) (hne : x ≠ [] ∨ y ≠ []) :
    floatParseParts (x ++ '.' :: y) = some (x, y) := by
  have hnospace : ∀ c ∈ x ++ '.' :: y, isSpaceChar c = false :=
    forall_mem_append_cons (fun c hc => isDigit_not_space (hx c hc)) (by decide)
      (fun c hc => isDigit_not_space (hy c hc))
  have hstrip : stripStr (x ++ '.' :: y) = x ++ '.' :: y :=
    stripStr_eq_self hnospace
  have hall : (x ++ '.' :: y).all (fun c => c.isDigit || c = '.') = true := by
    rw [List.all_eq_true]
    refine forall_mem_append_cons (fun c hc => ?_) (by decide) (fun c hc => ?_)
    · simp [hx c hc]
    · simp [hy c hc]
  have hany : (x ++ '.' :: y).any Char.isDigit = true := by
    rw [List.any_eq_true]
    rcases hne with h | h
    · obtain ⟨c, hc⟩ := List.exists_mem_of_ne_nil x h
      exact ⟨c, List.mem_append_left _ hc, hx c hc⟩
    · obtain ⟨c, hc⟩ := List.exists_mem_of_ne_nil y h
      exact ⟨c, List.mem_append_right _ (List.mem_cons_of_mem _ hc), hy c hc⟩
  simp only [floatParseParts, hstrip, hall, hany, Bool.and_self, if_true]
  rw [splitOnChar_append (dot_not_mem hx), splitOnChar_of_not_mem (dot_not_mem hy)]

theorem floatParseParts_two_dots {x y z : List Char} (hx : AllDigits x)
    (hy : AllDigits y) (hz : AllDigits z) :
    floatParseParts (x ++ '.' :: (y ++ '.' :: z)) = none := by
  have hnospace : ∀ c ∈ x ++ '.' :: (y ++ '.' :: z), isSpaceChar c = false :=
    forall_mem_append_cons (fun c hc => isDigit_not_space (hx c hc)) (by decide)
      (forall_mem_append_cons (fun c hc => isDigit_not_space (hy c hc)) (by decide)
        (fun c hc => isDigit_not_space (hz c hc)))
  simp only [floatParseParts, stripStr_eq_self hnospace]
  split
  · rw [splitOnChar_append (dot_not_mem hx), splitOnChar_append (dot_not_mem hy),
      splitOnChar_of_not_mem (dot_not_mem hz)]
  · rfl

theorem filter_kept_strip_digits_sep {s : List Char}
    (hkept : ∀ c ∈ s, keptChar c = true)
    (hnospace : ∀ c ∈ s, isSpaceChar c = false) :
    stripStr (List.filter keptChar s) = s := by
  rw [List.filter_eq_self.mpr hkept, stripStr_eq_self hnospace]

theorem kept_of_digit {x : Char} (h : x.isDigit = true) : keptChar x = true := by
  simp [keptChar, h]

theorem forall_mem_joinSep {P : Char → Prop} {ch : Char} (hch : P ch) :
    ∀ ps : List (List Char), (∀ p ∈ ps, ∀ x ∈ p, P x) ->
      ∀ x ∈ joinSep ch ps, P x := by
  intro ps
  induction ps with
  | nil => intro _ x hx; simp [joinSep] at hx
  | cons p ps' ih =>
    intro h x hx
    cases ps' with
    | nil => exact h p (List.mem_cons_self _ _) x hx
    | cons q rest =>
      rcases List.mem_append.mp hx with h' | h'
      · exact h p (List.mem_cons_self _ _) x h'
      · rcases List.mem_cons.mp h' with rfl | h''
        · exact hch
        · exact ih (fun r hr => h r (List.mem_cons_of_mem _ hr)) x h''

theorem parse_price_dots_comma {ps : List (List Char)} {lastp : List Char}
    (hps : ∀ p ∈ ps, AllDigits p) (hlast : AllDigits lastp)
    (hne : ps ≠ []) (hflat : ps.flatten ≠ []) :
    parse_price (.str (joinSep '.' ps ++ ',' :: lastp))
      = round2 (floatVal (ps.flatten, lastp)) := by
  have hkept : ∀ x ∈ joinSep '.' ps ++ ',' :: lastp, keptChar x = true :=
    forall_mem_append_cons
      (forall_mem_joinSep (by decide) _
        (fun p hp x hx => kept_of_digit (hps p hp x hx)))
      (by decide) (fun x hx => kept_of_digit (hlast x hx))
  have hnospace : ∀ x ∈ joinSep '.' ps ++ ',' :: lastp, isSpaceChar x = false :=
    forall_mem_append_cons
      (forall_mem_joinSep (by decide) _
        (fun p hp x hx => isDigit_not_space (hps p hp x hx)))
      (by decide) (fun x hx => isDigit_not_space (hlast x hx))
  apply parse_price_str_some
  rw [filter_kept_strip_digits_sep hkept hnospace,
    branchTransform_dots_comma hps hlast hne,
    floatParseParts_digits (AllDigits.flatten hps) hlast (Or.inl hflat)]

theorem parse_price_commas_dot {ps : List (List Char)} {lastp : List Char}
    (hps : ∀ p ∈ ps, AllDigits p) (hlast : AllDigits lastp)
    (hne : ps ≠ []) (hflat : ps.flatten ≠ []) :
    parse_price (.str (joinSep ',' ps ++ '.' :: lastp))
      = round2 (floatVal (ps.flatten, lastp)) := by
  have hkept : ∀ x ∈ joinSep ',' ps ++ '.' :: lastp, keptChar x = true :=
    forall_mem_append_cons
      (forall_mem_joinSep (by decide) _
        (fun p hp x hx => kept_of_digit (hps p hp x hx)))
      (by decide) (fun x hx => kept_of_digit (hlast x hx))
  have hnospace : ∀ x ∈ joinSep ',' ps ++ '.' :: lastp, isSpaceChar x = false :=
    forall_mem_append_cons
      (forall_mem_joinSep (by decide) _
        (fun p hp x hx => isDigit_not_space (hps p hp x hx)))
      (by decide) (fun x hx => isDigit_not_space (hlast x hx))
  apply parse_price_str_some
  rw [filter_kept_strip_digits_sep hkept hnospace,
    branchTransform_commas_dot hps hlast hne,
    floatParseParts_digits (AllDigits.flatten hps) hlast (Or.inl hflat)]

theorem parse_price_multi_decimal_zero {a b c d : List Char}
    (ha : AllDigits a) (hb : AllDigits b) (hc : AllDigits c) (hd : AllDigits d) :
    parse_price (.str (a ++ ',' :: (b ++ '.' :: (c ++ ',' :: d)))) = 0 := by
  have hkept : ∀ x ∈ a ++ ',' :: (b ++ '.' :: (c ++ ',' :: d)),
      keptChar x = true :=
    forall_mem_append_cons (fun x hx => kept_of_digit (ha x hx)) (by decide)
      (forall_mem_append_cons (fun x hx => kept_of_digit (hb x hx)) (by decide)
        (forall_mem_append_cons (fun x hx => kept_of_digit (hc x hx)) (by decide)
          (fun x hx => kept_of_digit (hd x hx))))
  have hnospace : ∀ x ∈ a ++ ',' :: (b ++ '.' :: (c ++ ',' :: d)),
      isSpaceChar x = false :=
    forall_mem_append_cons (fun x hx => isDigit_not_space (ha x hx)) (by decide)
      (forall_mem_append_cons (fun x hx => isDigit_not_space (hb x hx)) (by decide)
        (forall_mem_append_cons (fun x hx => isDigit_not_space (hc x hx)) (by decide)
          (fun x hx => isDigit_not_space (hd x hx))))
  apply parse_price_str_none
  rw [filter_kept_strip_digits_sep hkept hnospace,
    branchTransform_comma_dot_comma ha hb hc hd,
    show b ++ (c ++ '.' :: d) = (b ++ c) ++ '.' :: d from
      (List.append_assoc b c ('.' :: d)).symm,
    floatParseParts_two_dots ha (AllDigits.append hb hc) hd]

theorem parse_price_joinSep_comma {ps : List (List Char)} {lastp : List Char}
    (hps : ∀ p ∈ ps, AllDigits p) (hlast : AllDigits lastp)
    (hne : ps ≠ []) (hflat : ps.flatten ≠ []) :
    parse_price (.str (joinSep ',' (ps ++ [lastp])))
      = round2 (floatVal (ps.flatten, lastp)) := by
  have hsegs : ∀ p ∈ ps ++ [lastp], AllDigits p := by
    intro p hp
    rcases List.mem_append.mp hp with h | h
    · exact hps p h
    · rcases List.mem_cons.mp h with rfl | h'
      · exact hlast
      · simp at h'
  have hkept : ∀ x ∈ joinSep ',' (ps ++ [lastp]), keptChar x = true :=
    forall_mem_joinSep (by decide) _
      (fun p hp x hx => kept_of_digit (hsegs p hp x hx))
  have hnospace : ∀ x ∈ joinSep ',' (ps ++ [lastp]), isSpaceChar x = false :=
    forall_mem_joinSep (by decide) _
      (fun p hp x hx => isDigit_not_space (hsegs p hp x hx))
  apply parse_price_str_some
  rw [filter_kept_strip_digits_sep hkept hnospace,
    branchTransform_joinSep_comma hps hlast hne,
    floatParseParts_digits (AllDigits.flatten hps) hlast (Or.inl hflat)]

theorem parse_price_joinSep_dot {ps : List (List Char)} {lastp : List Char}
    (hps : ∀ p ∈ ps, AllDigits p) (hlast : AllDigits lastp)
    (hne : ps ≠ []) (hflat : ps.flatten ≠ []) :
    parse_price (.str (joinSep '.' (ps ++ [lastp])))
      = round2 (floatVal (ps.flatten, lastp)) := by
  have hsegs : ∀ p ∈ ps ++ [lastp], AllDigits p := by
    intro p hp
    rcases List.mem_append.mp hp with h | h
    · exact hps p h
    · rcases List.mem_cons.mp h with rfl | h'
      · exact hlast
      · simp at h'
  have hkept : ∀ x ∈ joinSep '.' (ps ++ [lastp]), keptChar x = true :=
    forall_mem_joinSep (by decide) _
      (fun p hp x hx => kept_of_digit (hsegs p hp x hx))
  have hnospace : ∀ x ∈ joinSep '.' (ps ++ [lastp]), isSpaceChar x = false :=
    forall_mem_joinSep (by decide) _
      (fun p hp x hx => isDigit_not_space (hsegs p hp x hx))
  apply parse_price_str_some
  rw [filter_kept_strip_digits_sep hkept hnospace,
    branchTransform_joinSep_dot hps hlast hne,
    floatParseParts_digits (AllDigits.flatten hps) hlast (Or.inl hflat)]

/-- C3, amended: when both separators occur and the right-most separator
type occurs exactly once (with any number of occurrences of the other
type), the right-most separator is the decimal point and all occurrences
of the other are removed; when only one separator type occurs, all but
its last occurrence are removed and the last is the decimal point.  Hence
`"1.150,23"`, `"1,150.23"` and `"1,150,23"` parse to `1150.23`, `"12,5"`
to `12.50`, and `"1.150.150,23"` to `1150150.23`.  But when the
right-most separator type occurs more than once alongside the other type
(shape `a,b.c,d`), the normalized string keeps several dots, `float()`
fails and `0.00` is returned — e.g. `"1,2.3,4"` gives `0.00` — so the
right-most occurrence is not treated as a decimal point on every
dual-separator string. -/
theorem parse_price_separator_disambiguation :
    (∀ (ps : List (List Char)) (lastp : List Char),
        (∀ p ∈ ps, AllDigits p) → AllDigits lastp → ps ≠ [] ->
        ps.flatten ≠ [] ->
        parse_price (.str (joinSep '.' ps ++ ',' :: lastp))
          = round2 (floatVal (ps.flatten, lastp)))
    ∧ (∀ (ps : List (List Char)) (lastp : List Char),
        (∀ p ∈ ps, AllDigits p) → AllDigits lastp → ps ≠ [] ->
        ps.flatten ≠ [] ->
        parse_price (.str (joinSep ',' ps ++ '.' :: lastp))
          = round2 (floatVal (ps.flatten, lastp)))
    ∧ (∀ (ps : List (List Char)) (lastp : List Char),
        (∀ p ∈ ps, AllDigits p) → AllDigits lastp → ps ≠ [] ->
        ps.flatten ≠ [] ->
        parse_price (.str (joinSep ',' (ps ++ [lastp])))
          = round2 (floatVal (ps.flatten, lastp)))
    ∧ (∀ (ps : List (List Char)) (lastp : List Char),
        (∀ p ∈ ps, AllDigits p) → AllDigits lastp → ps ≠ [] ->
        ps.flatten ≠ [] ->
        parse_price (.str (joinSep '.' (ps ++ [lastp])))
          = round2 (floatVal (ps.flatten, lastp)))
    ∧ (∀ a b c d : List Char, AllDigits a → AllDigits b ->
        AllDigits c → AllDigits d ->
        parse_price (.str (a ++ ',' :: (b ++ '.' :: (c ++ ',' :: d)))) = 0)
    ∧ (parse_price (.str ("1.150,23".toList)) = 1150.23
      ∧ parse_price (.str ("1,150.23".toList)) = 1150.23
      ∧ parse_price (.str ("1,150,23".toList)) = 1150.23
      ∧ parse_price (.str ("12,5".toList)) = 12.5
      ∧ parse_price (.str ("1.150.150,23".toList)) = 1150150.23
      ∧ parse_price (.str ("1,2.3,4".toList)) = 0) := by
  refine ⟨fun ps lastp hps hlast hne hflat =>
      parse_price_dots_comma hps hlast hne hflat,
    fun ps lastp hps hlast hne hflat =>
      parse_price_commas_dot hps hlast hne hflat,
    fun ps lastp hps hlast hne hflat =>
      parse_price_joinSep_comma hps hlast hne hflat,
    fun ps lastp hps hlast hne hflat =>
      parse_price_joinSep_dot hps hlast hne hflat,
    fun a b c d ha hb hc hd =>
      parse_price_multi_decimal_zero ha hb hc hd,
    ?_, ?_, ?_, ?_, ?_, parse_price_str_none (by decide)⟩
  · rw [parse_price_str_some (i := ("1150".toList)) (f := ("23".toList)) (by decide)]
    simp only [floatVal, show digitsNat ("1150".toList) = 1150 from by decide,
      show digitsNat ("23".toList) = 23 from by decide,
      show ("23".toList).length = 2 from by decide]
    norm_num [round2, roundHalfEven]
  · rw [parse_price_str_some (i := ("1150".toList)) (f := ("23".toList)) (by decide)]
    simp only [floatVal, show digitsNat ("1150".toList) = 1150 from by decide,
      show digitsNat ("23".toList) = 23 from by decide,
      show ("23".toList).length = 2 from by decide]
    norm_num [round2, roundHalfEven]
  · rw [parse_price_str_some (i := ("1150".toList)) (f := ("23".toList)) (by decide)]
    simp only [floatVal, show digitsNat ("1150".toList) = 1150 from by decide,
      show digitsNat ("23".toList) = 23 from by decide,
      show ("23".toList).length = 2 from by decide]
    norm_num [round2, roundHalfEven]
  · rw [parse_price_str_some (i := ("12".toList)) (f := ("5".toList)) (by decide)]
    simp only [floatVal, show digitsNat ("12".toList) = 12 from by decide,
      show digitsNat ("5".toList) = 5 from by decide,
      show ("5".toList).length = 1 from by decide]
    norm_num [round2, roundHalfEven]
  · rw [parse_price_str_some (i := ("1150150".toList)) (f := ("23".toList)) (by decide)]
    simp only [floatVal, show digitsNat ("1150150".toList) = 1150150 from by decide,
      show digitsNat ("23".toList) = 23 from by decide,
      show ("23".toList).length = 2 from by decide]
    norm_num [round2, roundHalfEven]

/-- C3, counterexample: on `"1,2.3,4"` both separators occur and the
right-most one (the final comma) should, per the claimed rule, be the
decimal point with the other separator occurrences removed, yielding
`123.40`; the code instead normalizes the string to `"1.23.4"`, `float()`
raises, and `_parse_price` returns `0.00`. -/
theorem parse_price_rightmost_decimal_cex :
    parse_price (.str ("1,2.3,4".toList)) = 0
    ∧ round2 (floatVal (("123".toList), ("4".toList))) = 123.4
    ∧ (0 : ℚ) ≠ 123.4 := by
  refine ⟨parse_price_str_none (by decide), ?_, by norm_num⟩
  simp only [floatVal, show digitsNat ("123".toList) = 123 from by decide,
    show digitsNat ("4".toList) = 4 from by decide,
    show ("4".toList).length = 1 from by decide]
  norm_num [round2, roundHalfEven]

/-- C3, witness for the amended theorem: the dots-as-thousands conjunct
instantiated at the segments of `"1.150.150,23"`. -/
theorem parse_price_separator_disambiguation_witness :
    (∀ p ∈ [("1".toList), ("150".toList), ("150".toList)], AllDigits p)
    ∧ AllDigits ("23".toList)
    ∧ ([("1".toList), ("150".toList), ("150".toList)] ≠ ([] : List (List Char)))
    ∧ ([("1".toList), ("150".toList), ("150".toList)].flatten ≠ ([] : List Char))
    ∧ parse_price (.str (joinSep '.' [("1".toList), ("150".toList), ("150".toList)]
          ++ ',' :: ("23".toList)))
        = round2 (floatVal ([("1".toList), ("150".toList), ("150".toList)].flatten,
            ("23".toList))) :=
  ⟨by decide, by decide, by decide, by decide,
    parse_price_separator_disambiguation.1 _ _ (by decide) (by decide) (by decide)
      (by decide)⟩

theorem round2_natCast (n : ℕ) : round2 (n : ℚ) = n := by
  unfold round2 roundHalfEven
  have h : ((n : ℚ) * 100) = ((n * 100 : ℕ) : ℚ) := by push_cast; ring
  rw [h, Int.floor_natCast]
  rw [if_pos (by simp)]
  push_cast
  ring

theorem parse_price_clean_int {s i : List Char} {n : ℕ}
    (h : floatParseParts
        (branchTransform (stripStr (List.filter keptChar (cleanStr s))))
      = some (i, []))
    (hd : digitsNat i = n) :
    parse_price (cleanVal (.str s)) = n := by
  show parse_price (.str (cleanStr s)) = n
  rw [parse_price_str_some h, floatVal]
  dsimp only
  rw [hd]
  norm_num [digitsNat, round2_natCast]

/-- C1, amended: `process_item` sets
`has_discount = (before_discount_price > primary_price and
before_discount_price != 0)`.  Whenever the parsed primary price is
positive this coincides with the claimed predicate
`before_discount_price > primary_price > 0`, but when the primary price is
0 and the discount price is positive the flag is true, not false. -/
theorem process_item_has_discount :
    (∀ r : RawItem,
      (process_item r).has_discount
        = decide ((process_item r).before_discount_price > (process_item r).primary_price
            ∧ (process_item r).before_discount_price ≠ 0))
    ∧ (∀ r : RawItem, 0 < (process_item r).primary_price →
        ((process_item r).has_discount = true ↔
          ((process_item r).before_discount_price > (process_item r).primary_price
            ∧ 0 < (process_item r).primary_price))) := by
  constructor
  · intro r
    rfl
  · intro r h
    show decide _ = true ↔ _
    rw [decide_eq_true_eq]
    constructor
    · rintro ⟨h1, _⟩
      exact ⟨h1, h⟩
    · rintro ⟨h1, _⟩
      exact ⟨h1, (h.trans h1).ne'⟩

/-- C1, counterexample: a record whose primary price parses to 0 and whose
before-discount price parses to 5 gets `has_discount = true`, while the
claimed predicate `before_discount_price > primary_price > 0` is false. -/
theorem process_item_zero_primary_cex :
    (process_item ⟨.str ("0".toList), .str ("1".toList), .str ("5".toList)⟩).has_discount
        = true
    ∧ ¬ ((process_item ⟨.str ("0".toList), .str ("1".toList), .str ("5".toList)⟩).before_discount_price
          > (process_item ⟨.str ("0".toList), .str ("1".toList), .str ("5".toList)⟩).primary_price
        ∧ (process_item ⟨.str ("0".toList), .str ("1".toList), .str ("5".toList)⟩).primary_price
          > 0) := by
  have h0 : parse_price (cleanVal (.str ("0".toList))) = (0 : ℕ) :=
    parse_price_clean_int (i := ("0".toList)) (by decide) (by decide)
  have h5 : parse_price (cleanVal (.str ("5".toList))) = (5 : ℕ) :=
    parse_price_clean_int (i := ("5".toList)) (by decide) (by decide)
  have Hpp :
      (process_item ⟨.str ("0".toList), .str ("1".toList), .str ("5".toList)⟩).primary_price
        = 0 := by
    rw [show (process_item ⟨.str ("0".toList), .str ("1".toList), .str ("5".toList)⟩).primary_price
        = parse_price (cleanVal (.str ("0".toList))) from rfl, h0]
    norm_num
  have Hbd :
      (process_item ⟨.str ("0".toList), .str ("1".toList), .str ("5".toList)⟩).before_discount_price
        = 5 := by
    rw [show (process_item ⟨.str ("0".toList), .str ("1".toList), .str ("5".toList)⟩).before_discount_price
        = parse_price (cleanVal (.str ("5".toList))) from rfl, h5]
    norm_num
  have Hflag :
      (process_item ⟨.str ("0".toList), .str ("1".toList), .str ("5".toList)⟩).has_discount
        = decide ((process_item ⟨.str ("0".toList), .str ("1".toList), .str ("5".toList)⟩).before_discount_price
            > (process_item ⟨.str ("0".toList), .str ("1".toList), .str ("5".toList)⟩).primary_price
          ∧ (process_item ⟨.str ("0".toList), .str ("1".toList), .str ("5".toList)⟩).before_discount_price
            ≠ 0) := rfl
  constructor
  · simp only [Hflag, Hpp, Hbd]
    norm_num
  · simp only [Hpp, Hbd]
    norm_num

/-- C1, witness for the amended theorem: a record whose primary price
parses to 2 and whose before-discount price parses to 5 satisfies the
positive-primary hypothesis, and its flag matches the claimed predicate. -/
theorem process_item_has_discount_witness :
    0 < (process_item ⟨.str ("2".toList), .str ("1".toList), .str ("5".toList)⟩).primary_price
    ∧ ((process_item ⟨.str ("2".toList), .str ("1".toList), .str ("5".toList)⟩).has_discount
          = true ↔
        ((process_item ⟨.str ("2".toList), .str ("1".toList), .str ("5".toList)⟩).before_discount_price
            > (process_item ⟨.str ("2".toList), .str ("1".toList), .str ("5".toList)⟩).primary_price
          ∧ 0 < (process_item ⟨.str ("2".toList), .str ("1".toList), .str ("5".toList)⟩).primary_price)) := by
  have h2 : parse_price (cleanVal (.str ("2".toList))) = (2 : ℕ) :=
    parse_price_clean_int (i := ("2".toList)) (by decide) (by decide)
  have Hpp :
      0 < (process_item ⟨.str ("2".toList), .str ("1".toList), .str ("5".toList)⟩).primary_price := by
    rw [show (process_item ⟨.str ("2".toList), .str ("1".toList), .str ("5".toList)⟩).primary_price
        = parse_price (cleanVal (.str ("2".toList))) from rfl, h2]
    norm_num
  exact ⟨Hpp, process_item_has_discount.2 _ Hpp⟩

end Pipelines

/-! ### Results about the batch persister (`SaveToDatabase._commit_batch`) -/

namespace SaveToDatabase

theorem commitLoop_eq (db : List Char → Option ℕ) :
    ∀ (batch : List BatchItem) (cache : List (List Char × ℕ)),
      (∀ pr ∈ cache, db pr.1 = some pr.2) →
      commitLoop db cache batch = (stagedSpec db batch, skippedSpec db batch) := by
  intro batch
  induction batch with
  | nil =>
    intro cache _
    simp [commitLoop, stagedSpec, skippedSpec]
  | cons it rest ih =>
    intro cache hc
    cases hl : List.lookup it.store cache with
    | some sid =>
      have hdb : db it.store = some sid := hc _ (lookup_mem hl)
      by_cases hz : it.primary_price = 0 ∨ it.secondary_price = 0
      · simp only [commitLoop, hl, if_pos hz, ih cache hc]
        simp [stagedSpec, skippedSpec, hdb, hz]
      · simp only [commitLoop, hl, if_neg hz, ih cache hc]
        simp [stagedSpec, skippedSpec, hdb, hz]
    | none =>
      cases hdb : db it.store with
      | none =>
        simp only [commitLoop, hl, hdb, ih cache hc]
        simp [stagedSpec, skippedSpec, hdb]
      | some sid =>
        have hc' : ∀ pr ∈ (it.store, sid) :: cache, db pr.1 = some pr.2 := by
          intro pr hpr
          rcases List.mem_cons.mp hpr with rfl | hm
          · exact hdb
          · exact hc _ hm
        by_cases hz : it.primary_price = 0 ∨ it.secondary_price = 0
        · simp only [commitLoop, hl, hdb, if_pos hz, ih _ hc']
          simp [stagedSpec, skippedSpec, hdb, hz]
        · simp only [commitLoop, hl, hdb, if_neg hz, ih _ hc']
          simp [stagedSpec, skippedSpec, hdb, hz]

/-- C7, amended: during a batch commit, every buffered record with a
*known* store whose primary or secondary price is exactly zero is never
staged and gets a skip-list line, and processing of the remaining records
continues; a record whose store is unknown is skipped *without* a
skip-list line.  Precisely: the staged products are exactly the records
with a known store and both prices nonzero, and the skip-list lines are
exactly the records with a known store and a zero price, each in batch
order. -/
theorem commit_batch_skip_characterization :
    (∀ (db : List Char → Option ℕ) (batch : List BatchItem),
      commit_batch db batch = (stagedSpec db batch, skippedSpec db batch))
    ∧ (∀ (db : List Char → Option ℕ) (batch : List BatchItem) (it : BatchItem),
        it ∈ batch → (db it.store).isSome = true →
        (it.primary_price = 0 ∨ it.secondary_price = 0) →
        skipEntry it ∈ (commit_batch db batch).2) := by
  have hmain : ∀ (db : List Char → Option ℕ) (batch : List BatchItem),
      commit_batch db batch = (stagedSpec db batch, skippedSpec db batch) :=
    fun db batch => commitLoop_eq db batch [] (by simp)
  refine ⟨hmain, ?_⟩
  intro db batch it hmem hsome hz
  rw [hmain]
  exact List.mem_map_of_mem _ (List.mem_filter.mpr ⟨hmem, by simp [hsome, hz]⟩)

/-- C7, counterexample: a zero-priced record whose store is unknown to the
database is dropped by the `store is None → continue` path *before* the
zero-price check, so no skip-list line is appended, contradicting "a line
is appended" for every zero-priced buffered record. -/
theorem commit_batch_unknown_store_zero_price_cex :
    (⟨("ghost".toList), ("p".toList), [], [], 0, 1, none, false⟩ : BatchItem).primary_price
        = 0
    ∧ commit_batch (fun s => if s = ("continente".toList) then some 1 else none)
        [⟨("ghost".toList), ("p".toList), [], [], 0, 1, none, false⟩] = ([], []) :=
  ⟨rfl, rfl⟩

/-- C7, witness for the amended theorem: a zero-priced record of the known
store `continente` does get its skip-list line. -/
theorem commit_batch_skip_characterization_witness :
    ((fun s => if s = ("continente".toList) then some 1 else none)
        (⟨("continente".toList), ("zero".toList), [], [], 0, 1, none, false⟩ : BatchItem).store).isSome
      = true
    ∧ skipEntry (⟨("continente".toList), ("zero".toList), [], [], 0, 1, none, false⟩ : BatchItem)
        ∈ (commit_batch (fun s => if s = ("continente".toList) then some 1 else none)
            [⟨("continente".toList), ("zero".toList), [], [], 0, 1, none, false⟩]).2 :=
  ⟨rfl,
    commit_batch_skip_characterization.2 _ _ _ (List.mem_singleton.mpr rfl) rfl
      (Or.inl rfl)⟩

end SaveToDatabase

/-! ### Results about the quantity standardizer -/

namespace QntExtraction

theorem proc1_inv {caps : List (List Char)} {r : QResult}
    (h : proc1 caps = some r) :
    r.quantity_total = (r.quantity_items : ℚ) * r.quantity_value := by
  unfold proc1 at h
  split at h
  next v n _ _ =>
    split at h
    · exact absurd h (by simp)
    next hn =>
      obtain rfl := Option.some.inj h
      have hn' : ((n : ℚ)) ≠ 0 := Nat.cast_ne_zero.mpr hn
      show convert_to_base_unit v _ = (n : ℚ) * (convert_to_base_unit v _ / (n : ℚ))
      rw [mul_comm, div_mul_cancel₀ _ hn']
  next => exact absurd h (by simp)

theorem proc2_inv {caps : List (List Char)} {r : QResult}
    (h : proc2 caps = some r) :
    r.quantity_total = (r.quantity_items : ℚ) * r.quantity_value := by
  unfold proc2 at h
  split at h
  next v _ =>
    obtain rfl := Option.some.inj h
    show convert_to_base_unit v _ = ((1 : ℕ) : ℚ) * convert_to_base_unit v _
    rw [Nat.cast_one, one_mul]
  next => exact absurd h (by simp)

theorem proc3_inv {caps : List (List Char)} {r : QResult}
    (h : proc3 caps = some r) :
    r.quantity_total = (r.quantity_items : ℚ) * r.quantity_value := by
  unfold proc3 at h
  split at h
  next n v _ _ =>
    obtain rfl := Option.some.inj h
    rfl
  next => exact absurd h (by simp)

theorem proc4_inv {caps : List (List Char)} {r : QResult}
    (h : proc4 caps = some r) :
    r.quantity_total = (r.quantity_items : ℚ) * r.quantity_value := by
  unfold proc4 at h
  split at h
  next a b _ _ =>
    obtain rfl := Option.some.inj h
    show (a : ℚ) + (b : ℚ) = ((1 : ℕ) : ℚ) * ((a : ℚ) + (b : ℚ))
    rw [Nat.cast_one, one_mul]
  next => exact absurd h (by simp)

theorem proc5_inv {caps : List (List Char)} {r : QResult}
    (h : proc5 caps = some r) :
    r.quantity_total = (r.quantity_items : ℚ) * r.quantity_value := by
  unfold proc5 at h
  split at h
  next n m _ _ =>
    obtain rfl := Option.some.inj h
    rfl
  next => exact absurd h (by simp)

theorem proc6_inv {caps : List (List Char)} {r : QResult}
    (h : proc6 caps = some r) :
    r.quantity_total = (r.quantity_items : ℚ) * r.quantity_value := by
  unfold proc6 at h
  split at h
  next n _ =>
    obtain rfl := Option.some.inj h
    show (n : ℚ) = ((1 : ℕ) : ℚ) * (n : ℚ)
    rw [Nat.cast_one, one_mul]
  next => exact absurd h (by simp)

theorem proc7_inv {caps : List (List Char)} {r : QResult}
    (h : proc7 caps = some r) :
    r.quantity_total = (r.quantity_items : ℚ) * r.quantity_value := by
  unfold proc7 at h
  split at h
  next v _ =>
    obtain rfl := Option.some.inj h
    show convert_to_base_unit v _ = ((1 : ℕ) : ℚ) * convert_to_base_unit v _
    rw [Nat.cast_one, one_mul]
  next => exact absurd h (by simp)

theorem proc8_inv {caps : List (List Char)} {r : QResult}
    (h : proc8 caps = some r) :
    r.quantity_total = (r.quantity_items : ℚ) * r.quantity_value := by
  unfold proc8 at h
  split at h
  next n _ =>
    obtain rfl := Option.some.inj h
    show (n : ℚ) = ((1 : ℕ) : ℚ) * (n : ℚ)
    rw [Nat.cast_one, one_mul]
  next => exact absurd h (by simp)

theorem proc9_inv {caps : List (List Char)} {r : QResult}
    (h : proc9 caps = some r) :
    r.quantity_total = (r.quantity_items : ℚ) * r.quantity_value := by
  unfold proc9 at h
  split at h
  next n _ =>
    obtain rfl := Option.some.inj h
    show (n : ℚ) = ((1 : ℕ) : ℚ) * (n : ℚ)
    rw [Nat.cast_one, one_mul]
  next => exact absurd h (by simp)

theorem standardize_core_inv {qs : List Char} {r : QResult}
    (h : standardize_core qs = some r) :
    r.quantity_total = (r.quantity_items : ℚ) * r.quantity_value := by
  unfold standardize_core at h
  split at h
  · exact proc1_inv h
  split at h
  · exact proc2_inv h
  split at h
  · exact proc3_inv h
  split at h
  · exact proc4_inv h
  split at h
  · exact proc5_inv h
  split at h
  · exact proc6_inv h
  split at h
  · exact proc7_inv h
  split at h
  · exact proc8_inv h
  split at h
  · exact proc9_inv h
  obtain rfl := Option.some.inj h
  show (1 : ℚ) = ((1 : ℕ) : ℚ) * (1 : ℚ)
  rw [Nat.cast_one, one_mul]

theorem empty_result_inv :
    empty_result.quantity_total
      = (empty_result.quantity_items : ℚ) * empty_result.quantity_value := by
  show (1 : ℚ) = ((1 : ℕ) : ℚ) * (1 : ℚ)
  rw [Nat.cast_one, one_mul]

/-- C6: every result of `standardize_quantity` satisfies
`quantity_total = quantity_items * quantity_value`; the unit conversion
multiplies kg by 1000 into grams, l/lt by 1000 and cl by 10 into
millilitres; and `standardize("12 x 1 lt")` yields
`{value: 1000, unit: "ml", items: 12, total: 12000}`. -/
theorem standardize_quantity_total_invariant :
    (∀ (q : QInput) (hint : Option (List Char)) (r : QResult),
        standardize_quantity q hint = some r →
        r.quantity_total = (r.quantity_items : ℚ) * r.quantity_value)
    ∧ (∀ v : ℚ,
        convert_to_base_unit v ("kg".toList) = v * 1000
        ∧ convert_to_base_unit v ("l".toList) = v * 1000
        ∧ convert_to_base_unit v ("lt".toList) = v * 1000
        ∧ convert_to_base_unit v ("cl".toList) = v * 10
        ∧ convert_to_base_unit v ("g".toList) = v
        ∧ convert_to_base_unit v ("ml".toList) = v)
    ∧ standardize_quantity (.str ("12 x 1 lt".toList)) none
        = some ⟨1000, "ml".toList, 12, 12000⟩ := by
  refine ⟨?_, ?_, ?_⟩
  · intro q hint r h
    cases q with
    | num n => exact standardize_core_inv h
    | str s =>
      rw [standardize_quantity] at h
      split at h
      · obtain rfl := Option.some.inj h
        exact empty_result_inv
      · exact standardize_core_inv h
    | other =>
      obtain rfl := Option.some.inj h
      exact empty_result_inv
  · intro v
    refine ⟨?_, ?_, ?_, ?_, ?_, ?_⟩
    · simp only [convert_to_base_unit,
        show lowerL ("kg".toList) = "kg".toList from by decide]
      simp
    · simp only [convert_to_base_unit,
        show lowerL ("l".toList) = "l".toList from by decide]
      rw [if_neg (by decide)]
      simp
    · simp only [convert_to_base_unit,
        show lowerL ("lt".toList) = "lt".toList from by decide]
      rw [if_neg (by decide)]
      simp
    · simp only [convert_to_base_unit,
        show lowerL ("cl".toList) = "cl".toList from by decide]
      rw [if_neg (by decide), if_neg (by decide)]
      simp
    · simp only [convert_to_base_unit,
        show lowerL ("g".toList) = "g".toList from by decide]
      rw [if_neg (by decide), if_neg (by decide), if_neg (by decide)]
    · simp only [convert_to_base_unit,
        show lowerL ("ml".toList) = "ml".toList from by decide]
      rw [if_neg (by decide), if_neg (by decide), if_neg (by decide)]
  · have hne : ¬ (("12 x 1 lt".toList) = ([] : List Char)) := by decide
    have hprep : prepQuantity ("12 x 1 lt".toList) = "12 x 1 lt".toList := by decide
    have h1 : searchAts pat1 ("12 x 1 lt".toList) = none := by decide
    have h2 : searchAts pat2 ("12 x 1 lt".toList) = none := by decide
    have h3 : searchAts pat3 ("12 x 1 lt".toList)
        = some [("12".toList), ("1".toList), ("l".toList)] := by decide
    have hf : floatOfCap ("1".toList) = some (1 : ℚ) := by
      have hp : Pipelines.floatParseParts (("1".toList).map Pipelines.commaToDot)
          = some (("1".toList), []) := by decide
      simp only [floatOfCap, Pipelines.floatParse, hp, Option.map_some']
      simp only [Pipelines.floatVal, show digitsNat ("1".toList) = 1 from by decide]
      norm_num [digitsNat]
    have hi : intParse ("12".toList) = some 12 := by decide
    have hc : convert_to_base_unit (1 : ℚ) ("l".toList) = 1000 := by
      simp only [convert_to_base_unit,
        show lowerL ("l".toList) = "l".toList from by decide]
      rw [if_neg (by decide)]
      simp
    have hu : standardize_unit ("l".toList) = "ml".toList := by decide
    simp only [standardize_quantity, if_neg hne, hprep, standardize_core, h1, h2,
      h3, proc3, grp, List.getD_cons_zero, List.getD_cons_succ, hi, hf, hc, hu]
    norm_num

/-- C6, witness: the `"12 x 1 lt"` example instantiates the invariant. -/
theorem standardize_quantity_total_invariant_witness :
    standardize_quantity (.str ("12 x 1 lt".toList)) none
        = some ⟨1000, "ml".toList, 12, 12000⟩
    ∧ (⟨1000, "ml".toList, 12, 12000⟩ : QResult).quantity_total
        = ((⟨1000, "ml".toList, 12, 12000⟩ : QResult).quantity_items : ℚ)
          * (⟨1000, "ml".toList, 12, 12000⟩ : QResult).quantity_value :=
  ⟨standardize_quantity_total_invariant.2.2,
    standardize_quantity_total_invariant.1 _ _ _
      standardize_quantity_total_invariant.2.2⟩

/-- C4: `standardize_quantity` is claimed never to raise, and the default
result is returned when nothing matches; but the weight-with-bracketed-
unit-count matcher divides by `int(m[3])`, so `"100 g (0 un)"` raises
`ZeroDivisionError` (modelled as `none`), while a no-match string does
return the default. -/
theorem standardize_quantity_zero_unit_count_raises :
    (standardize_quantity (.str ("100 g (0 un)".toList)) none).isNone = true
    ∧ standardize_quantity (.str ("xyz".toList)) none = some empty_result := by
  constructor
  · decide
  · rfl

/-- C5, counterexample: on `"1,075 gr (38 un)"` the captured amount
`"1,075"` goes through `float("1.075")`, so the total is `1.075` — not
`1075` — and the per-item value is `1.075 / 38`, not `1075 / 38`. -/
theorem standardize_quantity_thousands_comma_cex :
    standardize_quantity (.str ("1,075 gr (38 un)".toList)) none
        = some ⟨(1.075 : ℚ) / 38, "g".toList, 38, (1.075 : ℚ)⟩
    ∧ ((1.075 : ℚ) / 38 ≠ (1075 : ℚ) / 38)
    ∧ ((1.075 : ℚ) ≠ 1075) := by
  refine ⟨?_, by norm_num, by norm_num⟩
  have hne : ¬ (("1,075 gr (38 un)".toList) = ([] : List Char)) := by decide
  have hprep : prepQuantity ("1,075 gr (38 un)".toList)
      = "1,075 gr (38 un)".toList := by decide
  have h1 : searchAts pat1 ("1,075 gr (38 un)".toList)
      = some [("1,075".toList), ("gr".toList), ("38".toList)] := by decide
  have hf : floatOfCap ("1,075".toList) = some (1.075 : ℚ) := by
    have hp : Pipelines.floatParseParts (("1,075".toList).map Pipelines.commaToDot)
        = some (("1".toList), ("075".toList)) := by decide
    simp only [floatOfCap, Pipelines.floatParse, hp, Option.map_some']
    simp only [Pipelines.floatVal,
      show digitsNat ("1".toList) = 1 from by decide,
      show digitsNat ("075".toList) = 75 from by decide,
      show ("075".toList).length = 3 from by decide]
    norm_num
  have hi : intParse ("38".toList) = some 38 := by decide
  have hc : convert_to_base_unit (1.075 : ℚ) ("gr".toList) = (1.075 : ℚ) := by
    simp only [convert_to_base_unit,
      show lowerL ("gr".toList) = "gr".toList from by decide]
    rw [if_neg (by decide), if_neg (by decide), if_neg (by decide)]
  have hu : standardize_unit ("gr".toList) = "g".toList := by decide
  simp only [standardize_quantity, if_neg hne, hprep, standardize_core, h1,
    proc1, grp, List.getD_cons_zero, List.getD_cons_succ, hf, hi, hc, hu,
    if_neg (show ¬ (38 = 0) from by decide)]
  norm_num

/-- C5, amended: `standardize("1,075 gr (38 un)")` returns per-item value
`1.075 / 38 ≈ 0.0283`, unit `"g"`, items `38` and total `1.075`, because
the comma in the captured amount is treated as a decimal point
(`float(m[1].replace(',', '.'))`), not as a thousands separator. -/
theorem standardize_quantity_comma_decimal :
    standardize_quantity (.str ("1,075 gr (38 un)".toList)) none
        = some ⟨(1.075 : ℚ) / 38, "g".toList, 38, (1.075 : ℚ)⟩ := by
  have hne : ¬ (("1,075 gr (38 un)".toList) = ([] : List Char)) := by decide
  have hprep : prepQuantity ("1,075 gr (38 un)".toList)
      = "1,075 gr (38 un)".toList := by decide
  have h1 : searchAts pat1 ("1,075 gr (38 un)".toList)
      = some [("1,075".toList), ("gr".toList), ("38".toList)] := by decide
  have hf : floatOfCap ("1,075".toList) = some (1.075 : ℚ) := by
    have hp : Pipelines.floatParseParts (("1,075".toList).map Pipelines.commaToDot)
        = some (("1".toList), ("075".toList)) := by decide
    simp only [floatOfCap, Pipelines.floatParse, hp, Option.map_some']
    simp only [Pipelines.floatVal,
      show digitsNat ("1".toList) = 1 from by decide,
      show digitsNat ("075".toList) = 75 from by decide,
      show ("075".toList).length = 3 from by decide]
    norm_num
  have hi : intParse ("38".toList) = some 38 := by decide
  have hc : convert_to_base_unit (1.075 : ℚ) ("gr".toList) = (1.075 : ℚ) := by
    simp only [convert_to_base_unit,
      show lowerL ("gr".toList) = "gr".toList from by decide]
    rw [if_neg (by decide), if_neg (by decide), if_neg (by decide)]
  have hu : standardize_unit ("gr".toList) = "g".toList := by decide
  simp only [standardize_quantity, if_neg hne, hprep, standardize_core, h1,
    proc1, grp, List.getD_cons_zero, List.getD_cons_succ, hf, hi, hc, hu,
    if_neg (show ¬ (38 = 0) from by decide)]
  norm_num

end QntExtraction

/-! ### Results about the category normalizer -/

namespace CategoryNorm

theorem directCategoryLookup_mem {M : CatMapping} {cl n : List Char}
    (h : directCategoryLookup M cl = some n) :
    (cl, n) ∈ M.reverse_category_mapping := by
  unfold directCategoryLookup at h
  split at h
  next m hl =>
    split at h
    · exact absurd h (by simp)
    · obtain rfl := Option.some.inj h
      exact lookup_mem hl
  next hl => exact absurd h (by simp)

theorem getNormalizedCategory_fix (M : CatMapping)
    (Hcat : ∀ pr ∈ M.reverse_category_mapping,
      getNormalizedCategory M (some pr.2) = some pr.2) :
    ∀ v, getNormalizedCategory M (getNormalizedCategory M v)
        = getNormalizedCategory M v := by
  intro v
  cases v with
  | none => rfl
  | some c =>
    by_cases hc : c = []
    · simp [getNormalizedCategory, hc]
    · cases hd : directCategoryLookup M (lowerL c) with
      | some n =>
        have hres : getNormalizedCategory M (some c) = some n := by
          simp [getNormalizedCategory, hc, hd]
        rw [hres]
        exact Hcat _ (directCategoryLookup_mem hd)
      | none =>
        cases hf : M.reverse_category_mapping.find?
            (fun pr => isSubstring pr.1 (lowerL c) || isSubstring (lowerL c) pr.1) with
        | some pr =>
          have hres : getNormalizedCategory M (some c) = some pr.2 := by
            simp [getNormalizedCategory, hc, hd, categoryFallback, hf]
          rw [hres]
          exact Hcat pr (List.mem_of_find?_eq_some hf)
        | none =>
          have hres : getNormalizedCategory M (some c) = some c := by
            simp [getNormalizedCategory, hc, hd, categoryFallback, hf]
          rw [hres, hres]

theorem getNormalizedSubcategory_fix (M : CatMapping)
    (Hsub : ∀ rel ∈ M.category_subcategory_relationships, ∀ v ∈ rel.2,
      getNormalizedSubcategory M (some v) (some rel.1) = some v) :
    ∀ sub cat, getNormalizedSubcategory M (getNormalizedSubcategory M sub cat) cat
        = getNormalizedSubcategory M sub cat := by
  intro sub cat
  by_cases h1 : (falsy sub || falsy cat) = true
  · by_cases h2 : falsy sub = true
    · have hr : getNormalizedSubcategory M sub cat = none := by
        unfold getNormalizedSubcategory
        rw [if_pos h1, if_pos h2]
      rw [hr]
      unfold getNormalizedSubcategory
      rw [if_pos (by simp [falsy]), if_pos (by simp [falsy])]
    · have hr : getNormalizedSubcategory M sub cat = sub := by
        unfold getNormalizedSubcategory
        rw [if_pos h1, if_neg h2]
      rw [hr]
      exact hr
  · have h1' := h1
    rw [Bool.or_eq_true] at h1'
    push_neg at h1'
    obtain ⟨hsub, hcat⟩ := h1'
    cases sub with
    | none => exact (hsub rfl).elim
    | some s =>
    cases cat with
    | none => exact (hcat rfl).elim
    | some c =>
    cases hf1 : ((List.lookup c M.category_subcategory_relationships).getD []).find?
        (fun v => ((List.lookup v M.sub_category_mapping).getD []).any
          (fun old => isSubcategoryMatch s old)) with
    | some v =>
      have hres : getNormalizedSubcategory M (some s) (some c) = some v := by
        unfold getNormalizedSubcategory
        rw [if_neg h1]
        simp only [hf1]
      have hv := List.mem_of_find?_eq_some hf1
      cases hrel : List.lookup c M.category_subcategory_relationships with
      | none =>
        rw [hrel] at hv
        simp at hv
      | some vl =>
        rw [hrel] at hv
        simp only [Option.getD_some] at hv
        rw [hres]
        exact Hsub _ (lookup_mem hrel) v hv
    | none =>
      cases hf2 : M.sub_category_mapping.find?
          (fun pr => ((List.lookup c M.category_subcategory_relationships).getD []).contains pr.1
            && pr.2.any (fun old => isSubcategoryMatch s old)) with
      | some pr =>
        have hres : getNormalizedSubcategory M (some s) (some c) = some pr.1 := by
          unfold getNormalizedSubcategory
          rw [if_neg h1]
          simp only [hf1, hf2]
        have hp := List.find?_some hf2
        rw [Bool.and_eq_true] at hp
        have hmem1 : pr.1 ∈ (List.lookup c M.category_subcategory_relationships).getD [] := by
          have := hp.1
          simpa [List.contains] using List.elem_iff.mp this
        cases hrel : List.lookup c M.category_subcategory_relationships with
        | none =>
          rw [hrel] at hmem1
          simp at hmem1
        | some vl =>
          rw [hrel] at hmem1
          simp only [Option.getD_some] at hmem1
          rw [hres]
          exact Hsub _ (lookup_mem hrel) pr.1 hmem1
      | none =>
        have hres : getNormalizedSubcategory M (some s) (some c) = some s := by
          unfold getNormalizedSubcategory
          rw [if_neg h1]
          simp only [hf1, hf2]
        rw [hres]
        exact hres

/-- C9: category/sub-category normalization is idempotent for every
(category, sub_category) pair, provided the mapping data is canonical in
the sense the spec states — every canonical category produced by the
reverse alias map is itself normalized to itself, and every canonical
sub-category valid for a category resolves to itself in that category's
context. -/
theorem normalize_categories_idempotent (M : CatMapping)
    (Hcat : ∀ pr ∈ M.reverse_category_mapping,
      getNormalizedCategory M (some pr.2) = some pr.2)
    (Hsub : ∀ rel ∈ M.category_subcategory_relationships, ∀ v ∈ rel.2,
      getNormalizedSubcategory M (some v) (some rel.1) = some v) :
    ∀ p : Option (List Char) × Option (List Char),
      normalize_categories M (normalize_categories M p)
        = normalize_categories M p := by
  intro p
  unfold normalize_categories
  dsimp only
  rw [getNormalizedCategory_fix M Hcat, getNormalizedSubcategory_fix M Hsub]

/-- C9, witness: the spec-modelled mapping satisfies both canonicality
hypotheses, and normalization of a concrete alias pair is idempotent. -/
theorem normalize_categories_idempotent_witness :
    (∀ pr ∈ specMapping.reverse_category_mapping,
      getNormalizedCategory specMapping (some pr.2) = some pr.2)
    ∧ (∀ rel ∈ specMapping.category_subcategory_relationships, ∀ v ∈ rel.2,
        getNormalizedSubcategory specMapping (some v) (some rel.1) = some v)
    ∧ normalize_categories specMapping
        (normalize_categories specMapping
          (some ("mercearia".toList), some ("arroz".toList)))
      = normalize_categories specMapping
          (some ("mercearia".toList), some ("arroz".toList)) :=
  ⟨by decide, by decide,
    normalize_categories_idempotent specMapping (by decide) (by decide) _⟩

end CategoryNorm

/-! ### Results about the checkpoint predicate -/

/-- C8: the run-completion predicate holds iff every one of the three
sources has scraped-category count at least its total-category count. -/
theorem is_scraping_complete_iff (p : Spiders.ProgressState) :
    SaveToDatabase.is_scraping_complete p = true ↔
      ∀ s : Spiders.Source, Spiders.scrapedOf p s ≥ Spiders.totalOf p s := by
  simp only [SaveToDatabase.is_scraping_complete, Bool.and_eq_true,
    decide_eq_true_eq]
  constructor
  · rintro ⟨⟨h1, h2⟩, h3⟩ s
    cases s with
    | pingo_doce => exact h1
    | continente => exact h2
    | auchan => exact h3
  · intro h
    exact ⟨⟨h .pingo_doce, h .continente⟩, h .auchan⟩

/-- C10: on the freshly-reset default checkpoint template every per-source
total and scraped category count is 0, and the completion predicate
evaluates to true (0 ≥ 0 for all three sources). -/
theorem default_progress_complete :
    (∀ s : Spiders.Source,
      Spiders.totalOf Spiders.progress_file_default s = 0
        ∧ Spiders.scrapedOf Spiders.progress_file_default s = 0)
    ∧ SaveToDatabase.is_scraping_complete Spiders.progress_file_default = true := by
  constructor
  · intro s
    cases s <;> exact ⟨rfl, rfl⟩
  · rfl

end ProductScraper

